import Mathlib

/-!
Verification of the marketing-mailer core (recipient parser, template
parser, template engine, send controller) against its specification.

Strings are modelled as `List Char`.  JavaScript's `String.prototype`
operations (`trim`, `toLowerCase`, regex scanning) are embedded as
executable functions below; the case maps are the ASCII maps (the only
characters the parser heuristics and the specification exercise).
-/

abbrev Str := List Char

/-- Characters matched by the JavaScript regex class `\s`
(ASCII whitespace plus NBSP; further Unicode spaces are not used anywhere
in the data this program handles). -/
def isWsC (c : Char) : Bool :=
  c == ' ' || c == '\t' || c == '\n' || c == '\r' || c == '\x0b' || c == '\x0c' || c == '\xa0'

/-- Conversion from a Lean string literal to the `List Char` model. -/
def str (s : String) : Str := s.data

/-- Lowercase ASCII letters `a`-`z` (the class `[a-z]`). -/
def isLowerAZ (c : Char) : Bool :=
  c == 'a' || c == 'b' || c == 'c' || c == 'd' || c == 'e' || c == 'f' || c == 'g' ||
  c == 'h' || c == 'i' || c == 'j' || c == 'k' || c == 'l' || c == 'm' || c == 'n' ||
  c == 'o' || c == 'p' || c == 'q' || c == 'r' || c == 's' || c == 't' || c == 'u' ||
  c == 'v' || c == 'w' || c == 'x' || c == 'y' || c == 'z'

/-- Uppercase ASCII letters `A`-`Z`. -/
def isUpperAZ (c : Char) : Bool :=
  c == 'A' || c == 'B' || c == 'C' || c == 'D' || c == 'E' || c == 'F' || c == 'G' ||
  c == 'H' || c == 'I' || c == 'J' || c == 'K' || c == 'L' || c == 'M' || c == 'N' ||
  c == 'O' || c == 'P' || c == 'Q' || c == 'R' || c == 'S' || c == 'T' || c == 'U' ||
  c == 'V' || c == 'W' || c == 'X' || c == 'Y' || c == 'Z'

/-- ASCII `toUpperCase` of a single character (JS `String.prototype.toUpperCase`
restricted to the ASCII range; all other characters are fixed). -/
def upC (c : Char) : Char :=
  if c = 'a' then 'A' else if c = 'b' then 'B' else if c = 'c' then 'C' else
  if c = 'd' then 'D' else if c = 'e' then 'E' else if c = 'f' then 'F' else
  if c = 'g' then 'G' else if c = 'h' then 'H' else if c = 'i' then 'I' else
  if c = 'j' then 'J' else if c = 'k' then 'K' else if c = 'l' then 'L' else
  if c = 'm' then 'M' else if c = 'n' then 'N' else if c = 'o' then 'O' else
  if c = 'p' then 'P' else if c = 'q' then 'Q' else if c = 'r' then 'R' else
  if c = 's' then 'S' else if c = 't' then 'T' else if c = 'u' then 'U' else
  if c = 'v' then 'V' else if c = 'w' then 'W' else if c = 'x' then 'X' else
  if c = 'y' then 'Y' else if c = 'z' then 'Z' else c

/-- ASCII `toLowerCase` of a single character. -/
def lowC (c : Char) : Char :=
  if c = 'A' then 'a' else if c = 'B' then 'b' else if c = 'C' then 'c' else
  if c = 'D' then 'd' else if c = 'E' then 'e' else if c = 'F' then 'f' else
  if c = 'G' then 'g' else if c = 'H' then 'h' else if c = 'I' then 'i' else
  if c = 'J' then 'j' else if c = 'K' then 'k' else if c = 'L' then 'l' else
  if c = 'M' then 'm' else if c = 'N' then 'n' else if c = 'O' then 'o' else
  if c = 'P' then 'p' else if c = 'Q' then 'q' else if c = 'R' then 'r' else
  if c = 'S' then 's' else if c = 'T' then 't' else if c = 'U' then 'u' else
  if c = 'V' then 'v' else if c = 'W' then 'w' else if c = 'X' then 'x' else
  if c = 'Y' then 'y' else if c = 'Z' then 'z' else c

/-- JS `toLowerCase` of a whole string. -/
def lowerStr (l : Str) : Str := l.map lowC

/-- Left trim: drop the leading whitespace run (part of JS `trim`). -/
def trimL (l : Str) : Str := l.dropWhile isWsC

/-- Right trim: drop the trailing whitespace run (part of JS `trim`). -/
def trimR : Str → Str
  | [] => []
  | c :: cs =>
    let r := trimR cs
    if r.isEmpty && isWsC c then [] else c :: r

/-- JS `String.prototype.trim`. -/
def trimS (l : Str) : Str := trimR (trimL l)

/-- Delimiters of the name title-casing split `/(-|\s+)/` in
`titleCaseName` (`parseCsv.js`): hyphens and whitespace. -/
def isDelimC (c : Char) : Bool := c == '-' || isWsC c

/-- Character-wise rendering of `titleCaseName`'s split-and-capitalize step:
`n.split(/(-|\s+)/)` keeps the delimiters, every non-delimiter segment gets
`charAt(0).toUpperCase() + slice(1).toLowerCase()`, and the pieces are
joined back.  That is exactly: a non-delimiter character is uppercased when
it follows a delimiter (or starts the string) and lowercased otherwise. -/
def tcGo (atStart : Bool) : Str → Str
  | [] => []
  | c :: cs =>
    if isDelimC c then c :: tcGo true cs
    else (if atStart then upC c else lowC c) :: tcGo false cs

/-- `replace(/\s+/g, ' ')` from `titleCaseName`: every maximal whitespace
run collapses to a single space.  `prevWs` records whether the previous
character belonged to a whitespace run. -/
def cwGo (prevWs : Bool) : Str → Str
  | [] => []
  | c :: cs =>
    if isWsC c then (if prevWs then cwGo true cs else ' ' :: cwGo true cs)
    else c :: cwGo false cs

/-- `titleCaseName` from `parseCsv.js`: trim; if empty return `''`;
otherwise capitalize each hyphen/whitespace-delimited segment, collapse
whitespace runs to single spaces, and trim. -/
def titleCaseName (s : Str) : Str :=
  let n := trimS s
  if n.isEmpty then [] else trimS (cwGo false (tcGo true n))

/-- First-character-uppercase, rest-lowercase of one segment (the map
applied by `titleCaseName` to each non-delimiter part). -/
def capSeg : Str → Str
  | [] => []
  | c :: cs => upC c :: cs.map lowC

/-! ## Recipient parser (`parseCsv.js`) -/

/-- Association-list model of a JavaScript object with string values.
Lookup takes the FIRST matching key, so "later assignment overwrites"
is modelled by prepending and "first-seen wins" by appending. -/
abbrev Row := List (Str × Str)

/-- First-match association lookup (JS property read). -/
def lookupA (k : Str) : List (Str × Str) → Option Str
  | [] => none
  | (k', v) :: m => if k = k' then some v else lookupA k m

/-- JS `row[key]` with the `|| ''` default used throughout `parseCsv.js`. -/
def getJs (m : Row) (k : Str) : Str := (lookupA k m).getD []

/-- JS `a || b` on strings: the empty string is falsy. -/
def jsOr (a b : Str) : Str := if a.isEmpty then b else a

/-- The class `[a-z0-9]` used on the already-lowercased header name. -/
def isLowerAlnum (c : Char) : Bool := isLowerAZ c || c == '0' || c == '1' || c == '2' ||
  c == '3' || c == '4' || c == '5' || c == '6' || c == '7' || c == '8' || c == '9'

/-- `replace(/[^a-z0-9]+/g, '_')`: collapse every maximal run of
non-alphanumeric characters into one underscore. -/
def snakeGo (prevBad : Bool) : Str → Str
  | [] => []
  | c :: cs =>
    if isLowerAlnum c then c :: snakeGo false cs
    else if prevBad then snakeGo true cs else '_' :: snakeGo true cs

/-- `replace(/^_+|_+$/g, '')`: strip the trailing underscore run. -/
def dropTrailU : Str → Str
  | [] => []
  | c :: cs =>
    let r := dropTrailU cs
    if r.isEmpty && c == '_' then [] else c :: r

/-- Strip leading and trailing underscore runs. -/
def stripU (l : Str) : Str := dropTrailU (l.dropWhile (· == '_'))

/-- Order-preserving de-duplication keeping the first occurrence
(`Array.from(new Set(list))`). -/
def dedupF : List Str → List Str
  | [] => []
  | x :: xs => x :: (dedupF xs).filter (· ≠ x)

/-- `makeKeyAliases` from `parseCsv.js`: lowercased-trimmed raw key,
alphanumeric-only compact form, and snake-cased form; empties filtered,
duplicates removed keeping the first occurrence. -/
def makeKeyAliases (key : Str) : List Str :=
  let raw := lowerStr (trimS key)
  if raw.isEmpty then []
  else dedupF (([raw, raw.filter isLowerAlnum, stripU (snakeGo false raw)]).filter (fun a => ¬ a.isEmpty))

/-- JS `obj[k] = v` only when `obj[k] === undefined` (first-seen wins):
append, so an earlier binding keeps priority under first-match lookup. -/
def setIfAbsent (m : Row) (k v : Str) : Row :=
  if (lookupA k m).isSome then m else m ++ [(k, v)]

/-- `normalizeRow` from `parseCsv.js`: every column contributes its trimmed
string value under all of its aliases; the first-seen value for an alias
wins. -/
def normalizeRow (row : Row) : Row :=
  row.foldl (fun m kv => (makeKeyAliases kv.1).foldl (fun m2 al => setIfAbsent m2 al (trimS kv.2)) m) []

/-- Split on maximal whitespace runs, `fullName.split(/\s+/)` (callers pass
trimmed strings, so no empty leading piece arises).  Fuel-driven so the
definition is structural and computable by `decide`. -/
def splitWsAux : Nat → Str → List Str
  | 0, _ => []
  | _, [] => []
  | f + 1, l =>
    let sp := l.span (fun c => ¬ isWsC c)
    sp.1 :: splitWsAux f (sp.2.dropWhile isWsC)

/-- Split a string on whitespace runs. -/
def splitWs (l : Str) : List Str := splitWsAux l.length l

/-- `parts.join(' ')`. -/
def joinSp : List Str → Str
  | [] => []
  | [x] => x
  | x :: xs => x ++ ' ' :: joinSp xs

/-- `[first, last].filter(Boolean).join(' ').trim()`. -/
def composeName (a b : Str) : Str :=
  trimS (if a.isEmpty then b else if b.isEmpty then a else a ++ ' ' :: b)

/-- Name parts derived from one normalized row. -/
structure NameParts where
  first : Str
  last : Str
  name : Str
deriving DecidableEq

/-- `pickNameParts` from `parseCsv.js`: prefer a non-empty
`full_name`/`fullname` alias split on whitespace, else
`first_name`/`firstname` and `last_name`/`lastname`; fall back to
`name`/`contact` title-cased directly. -/
def pickNameParts (m : Row) : NameParts :=
  let fullName := trimS (jsOr (getJs m (str "full_name")) (getJs m (str "fullname")))
  if ¬ fullName.isEmpty then
    let parts := splitWs fullName
    let first := titleCaseName (parts.headD [])
    let last := titleCaseName (joinSp parts.tail)
    ⟨first, last, composeName first last⟩
  else
    let first := titleCaseName (jsOr (getJs m (str "first_name")) (getJs m (str "firstname")))
    let last := titleCaseName (jsOr (getJs m (str "last_name")) (getJs m (str "lastname")))
    let direct := titleCaseName (jsOr (getJs m (str "name")) (getJs m (str "contact")))
    ⟨first, last, jsOr (composeName first last) direct⟩

/-- Characters allowed around the `@` by the email regex: the class
`[^\s@]`. -/
def isEmailChar (c : Char) : Bool := ¬ isWsC c && c != '@'

/-- The email validation regex `^[^\s@]+@[^\s@]+\.[^\s@]+$`: exactly one
`@`, a non-empty local part, and a domain part containing a `.` that is
neither its first nor its last character; no whitespace anywhere. -/
def emailOk (l : Str) : Bool :=
  match l.splitOn '@' with
  | [a, b] => ¬ a.isEmpty && ¬ b.isEmpty && a.all isEmailChar && b.all isEmailChar &&
      b.tail.dropLast.contains '.'
  | _ => false

/-- One parsed recipient.  `vars` is the full recipient object passed to
the template engine (original trimmed columns, normalized aliases and the
canonical helper fields); `email`, `name`, `rowIndex` mirror the object's
scalar fields (`__rowIndex` is numeric in the source and therefore kept
outside `vars`, where it could never match a `[\w.-]+` template key
case-folded to lowercase anyway). -/
structure Recipient where
  email : Str
  name : Str
  rowIndex : Nat
  vars : List (Str × Str)
deriving DecidableEq

/-- Build the recipient object for one row (`parseCsv.js`, the body of the
`rows.map` callback after the two skip checks).  Object-spread layering is
rendered for first-match lookup: later JS assignments sit earlier in the
list.  Layers, outermost first: the `full_name`/`fullname`, `name`,
`last_name`/`lastname`, `first_name`/`firstname` and `email` canonical
assignments, then the normalized aliases, then the original trimmed
columns, and finally the object-literal fields `email`/`name` that the
spread `...templateData` overrides. -/
def recipientOfRow (ek : Str) (row : Row) (i : Nat) : Recipient :=
  let email := trimS (getJs row ek)
  let m := normalizeRow row
  let np := pickNameParts m
  let rowTrim : Row := row.map (fun kv => (kv.1, trimS kv.2))
  let vars :=
    (if ¬ np.name.isEmpty then [(str "fullname", np.name), (str "full_name", np.name)] else []) ++
    (if ¬ np.name.isEmpty then [(str "name", np.name)] else []) ++
    (if ¬ np.last.isEmpty then [(str "lastname", np.last), (str "last_name", np.last)] else []) ++
    (if ¬ np.first.isEmpty then [(str "firstname", np.first), (str "first_name", np.first)] else []) ++
    [(str "email", email)] ++ m ++ rowTrim ++ [(str "email", email), (str "name", np.name)]
  { email := email, name := np.name, rowIndex := i, vars := vars }

/-- The trimmed value of the last-contacted column, `''` when that column
was not identified. -/
def lastValOf (lk : Option Str) (row : Row) : Str :=
  match lk with
  | some k => trimS (getJs row k)
  | none => []

/-- The `rows.map(...).filter(Boolean)` pass of `parseCsvFile` together
with its two skip counters.  Returns
`(recipients, skippedInvalidEmail, skippedPreviouslyContacted)`. -/
def processRows (ek : Str) (lk : Option Str) : List Row → Nat → List Recipient × Nat × Nat
  | [], _ => ([], 0, 0)
  | row :: rs, i =>
    let rest := processRows ek lk rs (i + 1)
    if ¬ (lastValOf lk row).isEmpty then (rest.1, rest.2.1, rest.2.2 + 1)
    else if emailOk (trimS (getJs row ek)) then
      (recipientOfRow ek row i :: rest.1, rest.2.1, rest.2.2)
    else (rest.1, rest.2.1 + 1, rest.2.2)

/-- Result record of `parseCsvFile` (the resolved object). -/
structure ParseOutcome where
  recipients : List Recipient
  totalRows : Nat
  skipped : Nat
  skippedInvalidEmail : Nat
  skippedPreviouslyContacted : Nat
  headers : List Str
  lastContactedKey : Option Str
deriving DecidableEq

/-- The email-column header test `/^(e-?mail(address)?|mail)$/` on the
case-folded trimmed header: it accepts exactly these five spellings. -/
def emailHeaderOk (h : Str) : Bool :=
  [str "email", str "e-mail", str "emailaddress", str "e-mailaddress", str "mail"].contains
    (lowerStr (trimS h))

/-- The rejection message for a missing email column. -/
def noEmailMsg : Str :=
  str "No \"email\" column found in CSV. Please include a column named \"email\" (or \"mail\", \"emailaddress\")."

/-- `parseCsvFile` from `parseCsv.js` after a successful tabular decode:
headers are the trimmed header names, each row an object keyed by them.
Fatal decoder errors (bad delimiter/quotes) abort before this logic and
are outside the embedding. -/
def parseCsvRows (headers : List Str) (rows : List Row) : Except Str ParseOutcome :=
  let lk := headers.find? (fun h => (makeKeyAliases h).contains (str "lastcontacted"))
  match headers.find? emailHeaderOk with
  | none => .error noEmailMsg
  | some ek =>
    let t := processRows ek lk rows 0
    .ok { recipients := t.1, totalRows := rows.length, skipped := rows.length - t.1.length,
          skippedInvalidEmail := t.2.1, skippedPreviouslyContacted := t.2.2,
          headers := headers, lastContactedKey := lk }

/-! ## Template parser (`parseDocx.js`) -/

/-- JS `\w`: ASCII letters, digits and underscore. -/
def isWordC (c : Char) : Bool := isLowerAZ c || isUpperAZ c || c.isDigit || c == '_'

/-- Case-insensitive "starts with" (both sides folded with the ASCII map),
the effect of an anchored case-insensitive literal regex prefix. -/
def startsWithCI : Str → Str → Bool
  | [], _ => true
  | _ :: _, [] => false
  | p :: ps, c :: cs => (lowC p == lowC c) && startsWithCI ps cs

/-- One top-level block element of the converted document: its tag name
and its text content (`el.tagName`, `el.textContent`). -/
structure Block where
  tag : Str
  text : Str
deriving DecidableEq

/-- `isBlank` from `parseDocxFile`: no text content after trimming. -/
def blockBlank (b : Block) : Bool := (trimS b.text).isEmpty

/-- The test `/^dear\s/i` applied to a block's trimmed text. -/
def startsDearB : Str → Bool
  | d :: e :: a :: r :: c :: _ =>
    (lowC d == 'd') && (lowC e == 'e') && (lowC a == 'a') && (lowC r == 'r') && isWsC c
  | _ => false

/-- The match `^subject\s*:\s*(.+)$` (case-insensitive, no `m` flag) on an
already-trimmed text, returning the captured group.  `.` does not match a
newline and `$` anchors at the end of the string, so the remainder after
the colon must be non-empty and newline-free; since the input is trimmed
the captured group needs no further trim. -/
def subjectPrefixOf (t : Str) : Option Str :=
  if startsWithCI (str "subject") t then
    match (t.drop 7).dropWhile isWsC with
    | ':' :: r3 =>
      let cap := r3.dropWhile isWsC
      if ¬ cap.isEmpty && ¬ cap.contains '\n' then some cap else none
    | _ => none
  else none

/-- Whether the first non-blank block of the remainder starts with
`Dear<ws>` (priority 2's look-ahead in `parseDocxFile`). -/
def dearNextB (bs : List Block) : Bool :=
  match bs.find? (fun x => ¬ blockBlank x) with
  | some nb => startsDearB (trimS nb.text)
  | none => false

/-- Subject detection of `parseDocxFile`: the four-step priority chain over
the top-level blocks, returning the subject and the remaining body blocks
(`firstEl.remove()` deletes the matched element; blank blocks before it are
kept). -/
def detectSubject : List Block → Str × List Block
  | [] => ([], [])
  | b :: bs =>
    if blockBlank b then
      let p := detectSubject bs
      (p.1, b :: p.2)
    else
      let t := trimS b.text
      match subjectPrefixOf t with
      | some cap => (cap, bs)
      | none =>
        if dearNextB bs then (t, bs)
        else if b.tag = str "H1" then (t, b :: bs)
        else (t.take 80, b :: bs)

/-! ## Greeting normalization (`normalizeDearGreeting` in `parseDocx.js`)

The regex `\bDear\s+(?!{{name}})([^,:\n]+)[,:]?` (flags `gi`) is embedded
as a backtracking matcher: `\s+` tries its maximal length first and gives
characters back when the negative look-ahead rejects; the name part
`[^,:\n]+` is maximal and the trailing `[,:]` is optional.  The
replacement callback always produces `Dear {{name}},`.  The source walks
the DOM text nodes and applies this replacement to each node's value; one
application below models the rewrite of one text node. -/

/-- The literal text of the placeholder the look-ahead `(?!{{name}})`
tests for. -/
def placeholderName : Str := '{' :: '{' :: str "name" ++ '}' :: '}' :: []

/-- The replacement text `Dear {{name}},` (the callback normalizes both a
comma and a colon terminator to a comma). -/
def dearRepl : Str := str "Dear " ++ placeholderName ++ [',']

/-- Characters that terminate the name part: the complement class
`[^,:\n]`. -/
def dearStops (c : Char) : Bool := c == ',' || c == ':' || c == '\n'

/-- One attempt of the tail of the greeting regex at a fixed whitespace
split: look-ahead, then `([^,:\n]+)[,:]?`.  Returns the last consumed
source character (for later word-boundary checks) and the rest of the
input. -/
def dearAttempt (tail : Str) : Option (Char × Str) :=
  if startsWithCI placeholderName tail then none
  else
    match tail.span (fun c => ¬ dearStops c) with
    | ([], _) => none
    | (body, c :: rest2) =>
      if c == ',' || c == ':' then some (c, rest2)
      else some (body.getLastD ' ', c :: rest2)
    | (body, []) => some (body.getLastD ' ', [])

/-- Backtracking of the greedy `\s+`: with `ws` the maximal whitespace run
after `Dear`, try consuming `k` whitespace characters for `k` from
`ws.length` down to `1`. -/
def dearTryK (ws rest : Str) : Nat → Option (Char × Str)
  | 0 => none
  | k + 1 =>
    match dearAttempt (ws.drop (k + 1) ++ rest) with
    | some r => some r
    | none => dearTryK ws rest k

/-- Match of the whole greeting regex at the current position; `prev` is
the preceding character (`none` at the start of the text), used for the
`\b` word boundary before `Dear`. -/
def matchDear (prev : Option Char) (l : Str) : Option (Char × Str) :=
  let boundary := match prev with
    | none => true
    | some c => ¬ isWordC c
  if boundary && startsWithCI (str "dear") l then
    let sp := (l.drop 4).span isWsC
    if sp.1.isEmpty then none else dearTryK sp.1 sp.2 sp.1.length
  else none

/-- Global-replace scan of the greeting regex: at each position try a
match; on success emit `Dear {{name}},` and resume after the matched text,
otherwise emit the character and advance by one.  Fuel-driven (every step
consumes at least one character, so `l.length` fuel suffices). -/
def ndgAux : Nat → Option Char → Str → Str
  | 0, _, _ => []
  | _, _, [] => []
  | f + 1, prev, c :: cs =>
    match matchDear prev (c :: cs) with
    | some (lastc, rest) => dearRepl ++ ndgAux f (some lastc) rest
    | none => c :: ndgAux f (some c) cs

/-- `normalizeDearGreeting` applied to one text node's value. -/
def normalizeDearGreeting (l : Str) : Str := ndgAux l.length none l

/-! ## Template engine (`applyTemplate` in `parseDocx.js`) -/

/-- The identifier class `[\w.-]` of the placeholder regex. -/
def isKeyChar (c : Char) : Bool := isWordC c || c == '.' || c == '-'

/-- Match of `\{\{(\s*[\w.-]+\s*)\}\}` at the current position.  Returns
the full matched token, the key (group content without the surrounding
whitespace), and the rest of the input. -/
def tryMatch : Str → Option (Str × Str × Str)
  | c1 :: c2 :: r1 =>
    if c1 = '{' ∧ c2 = '{' then
      let w1 := r1.takeWhile isWsC
      let t1 := r1.dropWhile isWsC
      let k := t1.takeWhile isKeyChar
      let t2 := t1.dropWhile isKeyChar
      let w2 := t2.takeWhile isWsC
      let t3 := t2.dropWhile isWsC
      if k.isEmpty then none
      else
        match t3 with
        | '}' :: '}' :: rest => some ('{' :: '{' :: (w1 ++ k ++ w2) ++ '}' :: '}' :: [], k, rest)
        | _ => none
    else none
  | _ => none

/-- Left-to-right global replacement of `applyTemplate`: a matched token is
replaced by `variables[key]` (key trimmed and case-folded) when the key is
present, otherwise the token is kept verbatim; the scan resumes after the
token, never inside a substituted value.  Fuel-driven. -/
def substAux (vars : List (Str × Str)) : Nat → Str → Str
  | 0, _ => []
  | _, [] => []
  | f + 1, c :: cs =>
    match tryMatch (c :: cs) with
    | some (tok, key, rest) =>
      (match lookupA (lowerStr key) vars with
       | some v => v
       | none => tok) ++ substAux vars f rest
    | none => c :: substAux vars f cs

/-- `applyTemplate(html, variables)` from `parseDocx.js`. -/
def applyTemplate (body : Str) (vars : List (Str × Str)) : Str :=
  substAux vars body.length body

/-! ## Send controller (`handleSend` in `App.jsx`)

The loop walks the recipients in order; at the top of each iteration it
reads the cancellation flag (`abortRef.current`) and breaks when set;
otherwise it personalizes body and subject, invokes the external delivery
capability, appends one result entry (`sent` or `failed` with the error
message), and then always awaits the fixed 350 ms pacing delay before the
next iteration.  The flag value observed at the top of iteration `i` is
modelled by `flag i`; the delivery capability by a function from the
iteration index and the personalized message to `Except` (success or an
error message). -/

/-- Outcome recorded for one attempted recipient. -/
inductive SendStatus where
  | sent
  | failed
deriving DecidableEq

/-- One entry of the results ledger (`{ email, status }` or
`{ email, status, error }`). -/
structure SendResult where
  email : Str
  status : SendStatus
  errorMessage : Option Str
deriving DecidableEq

/-- Events of one run of the send loop: the flag check at the top of an
iteration, a delivery attempt with its recorded result, and the fixed
pacing wait after an attempt. -/
inductive Ev where
  | check (i : Nat)
  | attempt (i : Nat) (r : SendResult)
  | wait (i : Nat)
deriving DecidableEq

/-- Ledger entry produced from one delivery outcome. -/
def resultOf (r : Recipient) (out : Except Str Unit) : SendResult :=
  match out with
  | .ok _ => ⟨r.email, .sent, none⟩
  | .error m => ⟨r.email, .failed, some m⟩

/-- The delivery outcome of iteration `i`:
`sendEmail(token, email, name, personalizedSubject, personalizedHtml)`,
with the external capability abstracted as `d`. -/
def attemptOf (template subject : Str) (d : Nat → Str → Str → Str → Str → Except Str Unit)
    (i : Nat) (r : Recipient) : SendResult :=
  resultOf r (d i r.email r.name (applyTemplate subject r.vars) (applyTemplate template r.vars))

/-- Event trace of `handleSend`'s loop starting at iteration `i`. -/
def sendTrace (template subject : Str) (d : Nat → Str → Str → Str → Str → Except Str Unit)
    (flag : Nat → Bool) : List Recipient → Nat → List Ev
  | [], _ => []
  | r :: rs, i =>
    Ev.check i ::
      (if flag i then []
       else
         Ev.attempt i (attemptOf template subject d i r) :: Ev.wait i ::
           sendTrace template subject d flag rs (i + 1))

/-- The full event trace of one `handleSend` run. -/
def sendRun (recips : List Recipient) (template subject : Str)
    (d : Nat → Str → Str → Str → Str → Except Str Unit) (flag : Nat → Bool) : List Ev :=
  sendTrace template subject d flag recips 0

/-- Projection of the trace onto the appended ledger entries. -/
def extractRes : Ev → Option SendResult
  | .attempt _ r => some r
  | _ => none

/-- The results ledger of one `handleSend` run, in append order. -/
def sendResults (recips : List Recipient) (template subject : Str)
    (d : Nat → Str → Str → Str → Str → Except Str Unit) (flag : Nat → Bool) : List SendResult :=
  (sendRun recips template subject d flag).filterMap extractRes

/-- The ledger the specification prescribes for a list of attempted
recipients: one entry per recipient, in order (spec-side definition used
to state refinement of the ledger). -/
def ledgerSpec (template subject : Str) (d : Nat → Str → Str → Str → Str → Except Str Unit) :
    List Recipient → Nat → List SendResult
  | [], _ => []
  | r :: rs, i => attemptOf template subject d i r :: ledgerSpec template subject d rs (i + 1)

/-- Index of the first iteration (below `n`, starting at `i`) whose
top-of-loop flag check observes the cancellation flag set; `n` when none
does.  The loop attempts exactly the recipients before this index. -/
def cancelPointAux (flag : Nat → Bool) : Nat → Nat → Nat
  | 0, _ => 0
  | n + 1, i => if flag i then 0 else cancelPointAux flag n (i + 1) + 1

/-- Number of recipients attempted before the cancellation flag is honored. -/
def cancelPoint (flag : Nat → Bool) (n : Nat) : Nat := cancelPointAux flag n 0

/-! ## Send-loop lemmas and claims C1, C2 -/

theorem filterMap_sendTrace (template subject : Str)
    (d : Nat → Str → Str → Str → Str → Except Str Unit) (flag : Nat → Bool) :
    ∀ (rs : List Recipient) (i : Nat),
      (sendTrace template subject d flag rs i).filterMap extractRes =
        ledgerSpec template subject d (rs.take (cancelPointAux flag rs.length i)) i := by
  intro rs
  induction rs with
  | nil => intro i; rfl
  | cons r rs ih =>
    intro i
    by_cases h : flag i
    · simp [sendTrace, h, cancelPointAux, ledgerSpec, extractRes]
    · simp only [sendTrace, h, if_neg, Bool.false_eq_true, if_false, List.length_cons,
        cancelPointAux, List.take_succ_cons, ledgerSpec]
      simp [List.filterMap_cons, extractRes, ih (i + 1)]

theorem ledgerSpec_length (template subject : Str)
    (d : Nat → Str → Str → Str → Str → Except Str Unit) :
    ∀ (rs : List Recipient) (i : Nat), (ledgerSpec template subject d rs i).length = rs.length := by
  intro rs
  induction rs with
  | nil => intro i; rfl
  | cons r rs ih => intro i; simp [ledgerSpec, ih (i + 1)]

theorem ledgerSpec_get (template subject : Str)
    (d : Nat → Str → Str → Str → Str → Except Str Unit) :
    ∀ (rs : List Recipient) (i j : Nat) (r : Recipient), rs.get? j = some r →
      (ledgerSpec template subject d rs i).get? j = some (attemptOf template subject d (i + j) r) := by
  intro rs
  induction rs with
  | nil => intro i j r h; simp at h
  | cons r0 rs ih =>
    intro i j r h
    cases j with
    | zero => simp at h; simp [ledgerSpec, h]
    | succ j =>
      simp only [List.get?_cons_succ] at h
      have := ih (i + 1) j r h
      simpa [ledgerSpec, Nat.add_assoc, Nat.add_comm 1 j] using this

theorem cancelPointAux_false (flag : Nat → Bool) :
    ∀ (n i : Nat), (∀ m, flag m = false) → cancelPointAux flag n i = n := by
  intro n
  induction n with
  | zero => intro i h; rfl
  | succ n ih => intro i h; simp [cancelPointAux, h i, ih (i + 1) h]

theorem cancelPointAux_le (flag : Nat → Bool) :
    ∀ (n i k : Nat), flag (i + k) = true → cancelPointAux flag n i ≤ k := by
  intro n
  induction n with
  | zero => intro i k _; exact Nat.zero_le k
  | succ n ih =>
    intro i k hk
    by_cases h : flag i
    · simp [cancelPointAux, h]
    · cases k with
      | zero => simp at hk; exact absurd hk h
      | succ k =>
        simp only [cancelPointAux, h, Bool.false_eq_true, if_false]
        have := ih (i + 1) k (by simpa [Nat.add_assoc, Nat.add_comm 1 k] using hk)
        omega

theorem wait_mem_sendTrace (template subject : Str)
    (d : Nat → Str → Str → Str → Str → Except Str Unit) (flag : Nat → Bool) :
    ∀ (rs : List Recipient) (i k : Nat), k < cancelPointAux flag rs.length i →
      Ev.wait (i + k) ∈ sendTrace template subject d flag rs i := by
  intro rs
  induction rs with
  | nil => intro i k h; simp [cancelPointAux] at h
  | cons r rs ih =>
    intro i k h
    by_cases hf : flag i
    · simp [List.length_cons, cancelPointAux, hf] at h
    · simp only [List.length_cons, cancelPointAux, hf, Bool.false_eq_true, if_false] at h
      cases k with
      | zero => simp [sendTrace, hf]
      | succ k =>
        have hk : k < cancelPointAux flag rs.length (i + 1) := by omega
        have := ih (i + 1) k hk
        simp only [sendTrace, hf, Bool.false_eq_true, if_false]
        right; right; right
        simpa [Nat.add_assoc, Nat.add_comm 1 k] using this

/-- Sample recipient used in the concrete send-loop checks. -/
def recEx (e : String) : Recipient := ⟨str e, [], 0, []⟩

/-- Delivery capability that fails exactly for the second recipient. -/
def deliverEx : Nat → Str → Str → Str → Str → Except Str Unit :=
  fun i _ _ _ _ => if i = 1 then .error (str "boom") else .ok ()

/-- C1: in the send loop, every recipient attempted produces exactly one
ledger entry — `sent` on delivery success, `failed` with the error message
on failure — entries are in recipient order (entry `j` belongs to
recipient `j`), and a failure never aborts the batch: with no
cancellation, the ledger covers all recipients, as in the 3-recipient run
whose 2nd delivery fails. -/
theorem handleSend_ledger_C1 :
    (∀ (recips : List Recipient) (template subject : Str)
        (d : Nat → Str → Str → Str → Str → Except Str Unit),
      (sendResults recips template subject d (fun _ => false)).length = recips.length ∧
      ∀ (j : Nat) (r : Recipient), recips.get? j = some r →
        (sendResults recips template subject d (fun _ => false)).get? j =
          some (attemptOf template subject d j r)) ∧
    sendResults [recEx "a@x.io", recEx "b@x.io", recEx "c@x.io"] [] [] deliverEx (fun _ => false) =
      [⟨str "a@x.io", .sent, none⟩, ⟨str "b@x.io", .failed, some (str "boom")⟩,
       ⟨str "c@x.io", .sent, none⟩] := by
  constructor
  · intro recips template subject d
    have hfm := filterMap_sendTrace template subject d (fun _ => false) recips 0
    have hcp := cancelPointAux_false (fun _ => false) recips.length 0 (fun _ => rfl)
    rw [hcp, List.take_length] at hfm
    constructor
    · show (sendResults recips template subject d (fun _ => false)).length = recips.length
      unfold sendResults sendRun
      rw [hfm, ledgerSpec_length]
    · intro j r hj
      show ((sendTrace template subject d (fun _ => false) recips 0).filterMap extractRes).get? j = _
      rw [hfm]
      have := ledgerSpec_get template subject d recips 0 j r hj
      simpa using this
  · decide

theorem handleSend_ledger_C1_witness :
    ([recEx "a@x.io", recEx "b@x.io", recEx "c@x.io"].get? 1 = some (recEx "b@x.io")) ∧
    (sendResults [recEx "a@x.io", recEx "b@x.io", recEx "c@x.io"] [] [] deliverEx
        (fun _ => false)).get? 1 = some (attemptOf [] [] deliverEx 1 (recEx "b@x.io")) :=
  ⟨by decide,
   (handleSend_ledger_C1.1 [recEx "a@x.io", recEx "b@x.io", recEx "c@x.io"] [] [] deliverEx).2
     1 (recEx "b@x.io") (by decide)⟩

/-- Two-recipient run in which cancellation is requested during the first
attempt: the flag is still unset at the check of iteration 0 and is set
from the check of iteration 1 on. -/
def recips2 : List Recipient := [recEx "a@x.io", recEx "b@x.io"]

/-- Flag observed by the loop: set from iteration 1 on. -/
def flagDuring0 : Nat → Bool := fun i => decide (1 ≤ i)

/-- Delivery capability that always succeeds. -/
def deliverOkAll : Nat → Str → Str → Str → Str → Except Str Unit := fun _ _ _ _ _ => .ok ()

/-- C2 counterexample: the claim says the ~350 ms pacing wait is skipped
when cancellation was requested during the attempt; in the code the wait
is unconditional.  In a 2-recipient run where cancellation is requested
during attempt 0 (flag unset at check 0, set at check 1), the trace still
contains the pacing wait of iteration 0. -/
theorem sendLoop_cancel_C2_cex :
    ¬ (∀ i, flagDuring0 i = false → flagDuring0 (i + 1) = true →
        i < cancelPoint flagDuring0 recips2.length →
        Ev.wait i ∉ sendRun recips2 [] [] deliverOkAll flagDuring0) := by
  intro h
  exact h 0 (by decide) (by decide) (by decide) (by decide)

/-- C2 (amended): cancellation is honored exactly at the top of each
iteration — the ledger is exactly one entry per recipient before the first
iteration whose check observes the flag, recipients beyond it are
unattempted with no entry (so a flag set by the check of iteration `j`
bounds the ledger by `j` entries, e.g. at most 2 of 5 when the flag is set
by check 2) — but the fixed ~350 ms pacing wait is never skipped: it
follows every attempt, including one during which cancellation was
requested. -/
theorem sendLoop_cancel_C2_amended :
    ∀ (recips : List Recipient) (template subject : Str)
      (d : Nat → Str → Str → Str → Str → Except Str Unit) (flag : Nat → Bool),
      sendResults recips template subject d flag =
        ledgerSpec template subject d (recips.take (cancelPoint flag recips.length)) 0 ∧
      (∀ i, i < cancelPoint flag recips.length →
        Ev.wait i ∈ sendRun recips template subject d flag) ∧
      (∀ j, flag j = true → (sendResults recips template subject d flag).length ≤ j) := by
  intro recips template subject d flag
  refine ⟨filterMap_sendTrace template subject d flag recips 0, ?_, ?_⟩
  · intro i hi
    have := wait_mem_sendTrace template subject d flag recips 0 i hi
    simpa [sendRun] using this
  · intro j hj
    have hfm := filterMap_sendTrace template subject d flag recips 0
    show (sendResults recips template subject d flag).length ≤ j
    unfold sendResults sendRun
    rw [hfm, ledgerSpec_length]
    have h1 : cancelPointAux flag recips.length 0 ≤ j :=
      cancelPointAux_le flag recips.length 0 j (by simpa using hj)
    have h2 : (recips.take (cancelPointAux flag recips.length 0)).length ≤
        cancelPointAux flag recips.length 0 := by
      simp [List.length_take]
    omega

/-- Five-recipient list for the cancellation bound check. -/
def recips5 : List Recipient :=
  [recEx "a@x.io", recEx "b@x.io", recEx "c@x.io", recEx "d@x.io", recEx "e@x.io"]

/-- Flag observed by the loop: set from iteration 2 on (cancellation
requested after the first recipient completed). -/
def flagFrom2 : Nat → Bool := fun i => decide (2 ≤ i)

theorem sendLoop_cancel_C2_witness :
    flagFrom2 2 = true ∧ (sendResults recips5 [] [] deliverOkAll flagFrom2).length ≤ 2 :=
  ⟨by decide, (sendLoop_cancel_C2_amended recips5 [] [] deliverOkAll flagFrom2).2.2 2 (by decide)⟩

/-! ## Recipient-parser claims C3, C4, C9 -/

/-- Projection of a parse result onto its success value. -/
def getOk : Except Str ParseOutcome → Option ParseOutcome
  | .ok o => some o
  | .error _ => none

/-- Projection of a parse result onto its error message. -/
def getErr : Except Str ParseOutcome → Option Str
  | .ok _ => none
  | .error m => some m

theorem processRows_counters (ek : Str) (lk : Option Str) :
    ∀ (rs : List Row) (i : Nat),
      (processRows ek lk rs i).2.1 + (processRows ek lk rs i).2.2 +
        (processRows ek lk rs i).1.length = rs.length := by
  intro rs
  induction rs with
  | nil => intro i; rfl
  | cons row rs ih =>
    intro i
    have h := ih (i + 1)
    cases h1 : (lastValOf lk row).isEmpty
    · simp [processRows, h1]
      omega
    · cases h2 : emailOk (trimS (getJs row ek))
      · simp [processRows, h1, h2]
        omega
      · simp [processRows, h1, h2]
        omega

/-- C3: whenever parsing succeeds, the two skip counters and the number of
recipients partition the decoded data rows:
`skippedInvalidEmail + skippedPreviouslyContacted + len(recipients) =
totalRows`, with `totalRows` the number of decoded rows. -/
theorem parseCsv_counters_C3 :
    ∀ (headers : List Str) (rows : List Row) (o : ParseOutcome),
      parseCsvRows headers rows = .ok o →
      o.skippedInvalidEmail + o.skippedPreviouslyContacted + o.recipients.length = o.totalRows ∧
      o.totalRows = rows.length := by
  intro headers rows o h
  unfold parseCsvRows at h
  cases heq : headers.find? emailHeaderOk with
  | none => rw [heq] at h; exact absurd h (by simp)
  | some ek =>
    rw [heq] at h
    simp only [Except.ok.injEq] at h
    subst h
    refine ⟨?_, rfl⟩
    exact processRows_counters ek _ rows 0

/-- Concrete CSV used by the parser witnesses: one valid row, one bad
email, one already-contacted row. -/
def hsEx : List Str := [str "Email", str "Full Name", str "Last Contacted"]

/-- Rows of the concrete CSV. -/
def rowsEx : List Row :=
  [ [(str "Email", str " alice@acme.io "), (str "Full Name", str "alice smith"),
     (str "Last Contacted", str "")],
    [(str "Email", str "bogus"), (str "Full Name", str "b"), (str "Last Contacted", str "")],
    [(str "Email", str "c@c.co"), (str "Full Name", str "c"),
     (str "Last Contacted", str "2024-01-01")] ]

theorem parseCsv_counters_C3_witness :
    ∃ o, parseCsvRows hsEx rowsEx = Except.ok o ∧
      o.skippedInvalidEmail + o.skippedPreviouslyContacted + o.recipients.length = o.totalRows ∧
      o.totalRows = rowsEx.length := by
  cases hEq : parseCsvRows hsEx rowsEx with
  | error m =>
    have hsome : (getOk (parseCsvRows hsEx rowsEx)).isSome = true := by decide
    rw [hEq] at hsome
    simp [getOk] at hsome
  | ok o => exact ⟨o, rfl, parseCsv_counters_C3 hsEx rowsEx o hEq⟩

/-- The four header spellings the claim lists (without the hyphenated
`e-mailaddress` the code's regex also accepts). -/
def claimedEmailHeaders : List Str := [str "email", str "e-mail", str "emailaddress", str "mail"]

/-- C9 counterexample: a CSV whose only header is `e-mailaddress` has no
header whose normalized form is one of `email`, `e-mail`, `emailaddress`,
`mail`, yet parsing succeeds — the code's pattern
`/^(e-?mail(address)?|mail)$/` also accepts the hyphenated
`e-mailaddress`, so the claimed failure does not occur. -/
theorem emailColumn_C9_cex :
    (getOk (parseCsvRows [str "e-mailaddress"] [[(str "e-mailaddress", str "a@b.co")]])).isSome = true ∧
    ([str "e-mailaddress"].all fun h => ¬ claimedEmailHeaders.contains (lowerStr (trimS h))) = true := by
  constructor
  · decide
  · decide

/-- C9 (amended): if no header's normalized (case-folded, trimmed) form
matches the pattern `e-?mail(address)?|mail` — i.e. one of `email`,
`e-mail`, `emailaddress`, `e-mailaddress`, `mail` — parsing fails with the
descriptive no-email-column error (and hence yields no recipients); in
particular a CSV whose only headers are `Name,Company` is rejected. -/
theorem emailColumn_C9_amended :
    (∀ (headers : List Str) (rows : List Row),
      (∀ h ∈ headers, emailHeaderOk h = false) →
      parseCsvRows headers rows = .error noEmailMsg) ∧
    getErr (parseCsvRows [str "Name", str "Company"]
      [[(str "Name", str "n"), (str "Company", str "c")]]) = some noEmailMsg := by
  constructor
  · intro headers rows hall
    unfold parseCsvRows
    have : headers.find? emailHeaderOk = none := by
      rw [List.find?_eq_none]
      intro x hx
      simp [hall x hx]
    rw [this]
  · decide

theorem emailColumn_C9_witness :
    (∀ h ∈ [str "Name", str "Company"], emailHeaderOk h = false) ∧
    parseCsvRows [str "Name", str "Company"] [[(str "Name", str "n"), (str "Company", str "c")]] =
      .error noEmailMsg :=
  ⟨by decide,
   emailColumn_C9_amended.1 [str "Name", str "Company"]
     [[(str "Name", str "n"), (str "Company", str "c")]] (by decide)⟩

/-- First-defined-wins combination of two lookups (the effect of `++` on
association-list lookup). -/
def firstSome (a b : Option Str) : Option Str :=
  match a with
  | some v => some v
  | none => b

theorem firstSome_none (b : Option Str) : firstSome none b = b := rfl

theorem lookupA_append (k : Str) :
    ∀ (a b : List (Str × Str)), lookupA k (a ++ b) = firstSome (lookupA k a) (lookupA k b) := by
  intro a
  induction a with
  | nil => intro b; rfl
  | cons kv a ih =>
    intro b
    by_cases h : k = kv.1
    · simp [lookupA, h, firstSome]
    · simp only [List.cons_append]
      show lookupA k ((kv.1, kv.2) :: (a ++ b)) = firstSome (lookupA k ((kv.1, kv.2) :: a)) _
      simp [lookupA, h, ih b]

theorem lookupA_pair2_ne (k k1 k2 v1 v2 : Str) (c : Prop) [Decidable c]
    (h1 : k ≠ k1) (h2 : k ≠ k2) :
    lookupA k (if c then [(k1, v1), (k2, v2)] else []) = none := by
  split
  · simp [lookupA, h1, h2]
  · rfl

theorem lookupA_pair1_ne (k k1 v1 : Str) (c : Prop) [Decidable c] (h1 : k ≠ k1) :
    lookupA k (if c then [(k1, v1)] else []) = none := by
  split
  · simp [lookupA, h1]
  · rfl

/-- The recipient object always exposes `email` equal to the validated
(trimmed) address: the canonical `templateData.email` assignment wins over
every alias and original column, and none of the later canonical name
assignments uses the key `email`. -/
theorem lookupA_email_recipientOfRow (ek : Str) (row : Row) (i : Nat) :
    lookupA (str "email") (recipientOfRow ek row i).vars = some (trimS (getJs row ek)) := by
  have e1 : str "email" ≠ str "fullname" := by decide
  have e2 : str "email" ≠ str "full_name" := by decide
  have e3 : str "email" ≠ str "name" := by decide
  have e4 : str "email" ≠ str "lastname" := by decide
  have e5 : str "email" ≠ str "last_name" := by decide
  have e6 : str "email" ≠ str "firstname" := by decide
  have e7 : str "email" ≠ str "first_name" := by decide
  unfold recipientOfRow
  dsimp only
  simp only [List.append_assoc]
  rw [lookupA_append, lookupA_pair2_ne _ _ _ _ _ _ e1 e2, firstSome_none,
      lookupA_append, lookupA_pair1_ne _ _ _ _ e3, firstSome_none,
      lookupA_append, lookupA_pair2_ne _ _ _ _ _ _ e4 e5, firstSome_none,
      lookupA_append, lookupA_pair2_ne _ _ _ _ _ _ e6 e7, firstSome_none]
  simp only [List.cons_append, List.nil_append]
  show lookupA (str "email") ((str "email", trimS (getJs row ek)) :: _) = _
  simp [lookupA]

theorem recipientOfRow_rowIndex (ek : Str) (row : Row) (i : Nat) :
    (recipientOfRow ek row i).rowIndex = i := rfl

theorem mem_processRows_ge (ek : Str) (lk : Option Str) :
    ∀ (rs : List Row) (i0 : Nat) (r : Recipient),
      r ∈ (processRows ek lk rs i0).1 → i0 ≤ r.rowIndex := by
  intro rs
  induction rs with
  | nil => intro i0 r h; simp [processRows] at h
  | cons row rs ih =>
    intro i0 r h
    cases h1 : (lastValOf lk row).isEmpty with
    | false =>
      simp only [processRows, h1] at h
      simp at h
      exact Nat.le_of_succ_le (ih (i0 + 1) r h)
    | true =>
      cases h2 : emailOk (trimS (getJs row ek)) with
      | false =>
        simp only [processRows, h1, h2] at h
        simp at h
        exact Nat.le_of_succ_le (ih (i0 + 1) r h)
      | true =>
        simp only [processRows, h1, h2] at h
        simp at h
        rcases h with h | h
        · rw [h, recipientOfRow_rowIndex]
        · exact Nat.le_of_succ_le (ih (i0 + 1) r h)

theorem processRows_filter_gt (ek : Str) (lk : Option Str) (rs : List Row) (i0 j : Nat)
    (hj : j < i0) : (processRows ek lk rs i0).1.filter (fun r => r.rowIndex == j) = [] := by
  rw [List.filter_eq_nil_iff]
  intro r hr
  have := mem_processRows_ge ek lk rs i0 r hr
  simp only [beq_iff_eq]
  omega

theorem processRows_filter_valid (ek : Str) (lk : Option Str) :
    ∀ (rs : List Row) (i0 j : Nat) (row : Row), rs.get? j = some row →
      (lastValOf lk row).isEmpty = true → emailOk (trimS (getJs row ek)) = true →
      (processRows ek lk rs i0).1.filter (fun r => r.rowIndex == i0 + j) =
        [recipientOfRow ek row (i0 + j)] := by
  intro rs
  induction rs with
  | nil => intro i0 j row h; simp at h
  | cons row0 rs ih =>
    intro i0 j row hget h1 h2
    cases j with
    | zero =>
      have hrow : row0 = row := by simpa using hget
      subst hrow
      simp only [processRows, h1, h2, Bool.true_eq_false, not_true, if_false, if_true]
      simp only [Nat.add_zero]
      rw [List.filter_cons]
      simp only [recipientOfRow_rowIndex, beq_self_eq_true, if_true]
      rw [processRows_filter_gt ek lk rs (i0 + 1) i0 (by omega)]
    | succ j =>
      have hget' : rs.get? j = some row := by simpa using hget
      have harith : i0 + (j + 1) = (i0 + 1) + j := by omega
      have hrec := ih (i0 + 1) j row hget' h1 h2
      cases hb1 : (lastValOf lk row0).isEmpty with
      | false =>
        simp only [processRows, hb1, Bool.false_eq_true, not_false_iff, if_true]
        rw [harith]; exact hrec
      | true =>
        cases hb2 : emailOk (trimS (getJs row0 ek)) with
        | false =>
          simp only [processRows, hb1, hb2, Bool.true_eq_false, not_true, if_false, if_true,
            Bool.false_eq_true]
          rw [harith]; exact hrec
        | true =>
          simp only [processRows, hb1, hb2, Bool.true_eq_false, not_true, if_false, if_true]
          rw [List.filter_cons]
          have : ((recipientOfRow ek row0 i0).rowIndex == i0 + (j + 1)) = false := by
            simp only [recipientOfRow_rowIndex, beq_eq_false_iff_ne, ne_eq]
            omega
          rw [this]
          simp only [if_false, Bool.false_eq_true]
          rw [harith]; exact hrec

theorem processRows_filter_invalid (ek : Str) (lk : Option Str) :
    ∀ (rs : List Row) (i0 j : Nat) (row : Row), rs.get? j = some row →
      (lastValOf lk row).isEmpty = true → emailOk (trimS (getJs row ek)) = false →
      (processRows ek lk rs i0).1.filter (fun r => r.rowIndex == i0 + j) = [] := by
  intro rs
  induction rs with
  | nil => intro i0 j row h; simp at h
  | cons row0 rs ih =>
    intro i0 j row hget h1 h2
    cases j with
    | zero =>
      have hrow : row0 = row := by simpa using hget
      subst hrow
      simp only [processRows, h1, h2, Bool.true_eq_false, not_true, if_false, if_true,
        Bool.false_eq_true]
      simp only [Nat.add_zero]
      exact processRows_filter_gt ek lk rs (i0 + 1) i0 (by omega)
    | succ j =>
      have hget' : rs.get? j = some row := by simpa using hget
      have harith : i0 + (j + 1) = (i0 + 1) + j := by omega
      have hrec := ih (i0 + 1) j row hget' h1 h2
      cases hb1 : (lastValOf lk row0).isEmpty with
      | false =>
        simp only [processRows, hb1, Bool.false_eq_true, not_false_iff, if_true]
        rw [harith]; exact hrec
      | true =>
        cases hb2 : emailOk (trimS (getJs row0 ek)) with
        | false =>
          simp only [processRows, hb1, hb2, Bool.true_eq_false, not_true, if_false, if_true,
            Bool.false_eq_true]
          rw [harith]; exact hrec
        | true =>
          simp only [processRows, hb1, hb2, Bool.true_eq_false, not_true, if_false, if_true]
          rw [List.filter_cons]
          have : ((recipientOfRow ek row0 i0).rowIndex == i0 + (j + 1)) = false := by
            simp only [recipientOfRow_rowIndex, beq_eq_false_iff_ne, ne_eq]
            omega
          rw [this]
          simp only [if_false, Bool.false_eq_true]
          rw [harith]; exact hrec

theorem processRows_invalid_count (ek : Str) (lk : Option Str) :
    ∀ (rs : List Row) (i0 : Nat),
      (processRows ek lk rs i0).2.1 =
        (rs.filter (fun row =>
          (lastValOf lk row).isEmpty && ¬ emailOk (trimS (getJs row ek)))).length := by
  intro rs
  induction rs with
  | nil => intro i0; rfl
  | cons row rs ih =>
    intro i0
    cases h1 : (lastValOf lk row).isEmpty with
    | false => simp [processRows, h1, List.filter_cons, ih (i0 + 1)]
    | true =>
      cases h2 : emailOk (trimS (getJs row ek)) with
      | false => simp [processRows, h1, h2, List.filter_cons, ih (i0 + 1)]
      | true => simp [processRows, h1, h2, List.filter_cons, ih (i0 + 1)]

/-- C4: in a successful parse, every row that is not excluded as
already-contacted and whose trimmed email-column value passes the email
regex appears in `recipients` exactly once (as the faithful translation of
the row, carried at its row index), with `variables.email` equal to the
validated trimmed address; a non-excluded row failing the email check
contributes no recipient and the `skippedInvalidEmail` counter counts
exactly those rows. -/
theorem parseCsv_validRows_C4 :
    ∀ (headers : List Str) (rows : List Row) (o : ParseOutcome) (ek : Str),
      parseCsvRows headers rows = .ok o →
      headers.find? emailHeaderOk = some ek →
      (∀ (j : Nat) (row : Row), rows.get? j = some row →
        (lastValOf o.lastContactedKey row).isEmpty = true →
        (emailOk (trimS (getJs row ek)) = true →
          o.recipients.filter (fun r => r.rowIndex == j) = [recipientOfRow ek row j] ∧
          lookupA (str "email") (recipientOfRow ek row j).vars = some (trimS (getJs row ek))) ∧
        (emailOk (trimS (getJs row ek)) = false →
          o.recipients.filter (fun r => r.rowIndex == j) = [])) ∧
      o.skippedInvalidEmail =
        (rows.filter (fun row =>
          (lastValOf o.lastContactedKey row).isEmpty &&
            ¬ emailOk (trimS (getJs row ek)))).length := by
  intro headers rows o ek h hek
  unfold parseCsvRows at h
  rw [hek] at h
  simp only [Except.ok.injEq] at h
  subst h
  dsimp only
  constructor
  · intro j row hget hlast
    constructor
    · intro hmail
      refine ⟨?_, lookupA_email_recipientOfRow ek row j⟩
      have := processRows_filter_valid ek _ rows 0 j row hget hlast hmail
      simpa using this
    · intro hmail
      have := processRows_filter_invalid ek _ rows 0 j row hget hlast hmail
      simpa using this
  · exact processRows_invalid_count ek _ rows 0

/-- The first data row of the witness CSV. -/
def rowEx0 : Row :=
  [(str "Email", str " alice@acme.io "), (str "Full Name", str "alice smith"),
   (str "Last Contacted", str "")]

theorem parseCsv_validRows_C4_witness :
    ∃ o, parseCsvRows hsEx rowsEx = Except.ok o ∧
      o.recipients.filter (fun r => r.rowIndex == 0) = [recipientOfRow (str "Email") rowEx0 0] ∧
      lookupA (str "email") (recipientOfRow (str "Email") rowEx0 0).vars =
        some (trimS (getJs rowEx0 (str "Email"))) := by
  cases hEq : parseCsvRows hsEx rowsEx with
  | error m =>
    have hsome : (getOk (parseCsvRows hsEx rowsEx)).isSome = true := by decide
    rw [hEq] at hsome
    simp [getOk] at hsome
  | ok o =>
    have hlast : (getOk (parseCsvRows hsEx rowsEx)).map
        (fun o => (lastValOf o.lastContactedKey rowEx0).isEmpty) = some true := by decide
    rw [hEq] at hlast
    simp [getOk] at hlast
    have hmain := (parseCsv_validRows_C4 hsEx rowsEx o (str "Email") hEq (by decide)).1
      0 rowEx0 (by decide) (by simp [hlast])
    exact ⟨o, rfl, (hmain.1 (by decide)).1, (hmain.1 (by decide)).2⟩

/-! ## Template-engine lemmas and claims C5, C10 -/

theorem dropWhile_len (p : Char → Bool) : ∀ l : Str, (l.dropWhile p).length ≤ l.length := by
  intro l
  induction l with
  | nil => simp
  | cons c cs ih =>
    by_cases h : p c
    · simp [List.dropWhile_cons, h]; omega
    · simp [List.dropWhile_cons, h]

theorem tryMatch_rest_lt :
    ∀ (l tok k rest : Str), tryMatch l = some (tok, k, rest) → rest.length < l.length := by
  intro l tok k rest h
  match l with
  | [] => simp [tryMatch] at h
  | [c1] => simp [tryMatch] at h
  | c1 :: c2 :: r1 =>
    simp only [tryMatch] at h
    split at h
    · split at h
      · simp at h
      · split at h
        · next heq =>
          simp only [Option.some.injEq, Prod.mk.injEq] at h
          obtain ⟨h1, h2, h3⟩ := h
          subst h3
          have h4 : (r1.dropWhile isWsC).length ≤ r1.length := dropWhile_len _ _
          have h5 : ((r1.dropWhile isWsC).dropWhile isKeyChar).length ≤
              (r1.dropWhile isWsC).length := dropWhile_len _ _
          have h6 : (((r1.dropWhile isWsC).dropWhile isKeyChar).dropWhile isWsC).length ≤
              ((r1.dropWhile isWsC).dropWhile isKeyChar).length := dropWhile_len _ _
          have h7 := congrArg List.length heq
          simp at h7
          simp [List.length_cons]
          omega
        · simp at h
    · simp at h

theorem substAux_congr (vars : List (Str × Str)) :
    ∀ (f1 : Nat), ∀ (f2 : Nat) (l : Str), l.length ≤ f1 → l.length ≤ f2 →
      substAux vars f1 l = substAux vars f2 l := by
  intro f1
  induction f1 with
  | zero =>
    intro f2 l h1 h2
    have : l = [] := by
      cases l with
      | nil => rfl
      | cons c cs => simp at h1
    subst this
    cases f2 <;> rfl
  | succ f1 ih =>
    intro f2 l h1 h2
    cases l with
    | nil => cases f2 <;> rfl
    | cons c cs =>
      cases f2 with
      | zero => simp at h2
      | succ f2 =>
        simp only [substAux]
        cases hm : tryMatch (c :: cs) with
        | none =>
          have := ih f2 cs (by simp at h1; omega) (by simp at h2; omega)
          dsimp only
          rw [this]
        | some t =>
          obtain ⟨tok, k, rest⟩ := t
          have hlt := tryMatch_rest_lt (c :: cs) tok k rest hm
          have := ih f2 rest (by simp at h1 hlt ⊢; omega) (by simp at h2 hlt ⊢; omega)
          dsimp only
          rw [this]

theorem applyTemplate_cons_none (vars : List (Str × Str)) (c : Char) (cs : Str)
    (h : tryMatch (c :: cs) = none) :
    applyTemplate (c :: cs) vars = c :: applyTemplate cs vars := by
  show substAux vars (c :: cs).length (c :: cs) = c :: substAux vars cs.length cs
  simp only [List.length_cons, substAux, h]

theorem applyTemplate_cons_some (vars : List (Str × Str)) (c : Char) (cs tok k rest : Str)
    (h : tryMatch (c :: cs) = some (tok, k, rest)) :
    applyTemplate (c :: cs) vars =
      (match lookupA (lowerStr k) vars with
       | some v => v
       | none => tok) ++ applyTemplate rest vars := by
  show substAux vars (c :: cs).length (c :: cs) = _ ++ substAux vars rest.length rest
  simp only [List.length_cons, substAux, h]
  have hlt := tryMatch_rest_lt (c :: cs) tok k rest h
  simp only [List.length_cons] at hlt
  rw [substAux_congr vars cs.length rest.length rest (by omega) (by omega)]


theorem ws_not_keyChar (c : Char) (h : isWsC c = true) : isKeyChar c = false := by
  simp only [isWsC, Bool.or_eq_true, beq_iff_eq] at h
  rcases h with (((((rfl | rfl) | rfl) | rfl) | rfl) | rfl) | rfl <;> decide

theorem keyChar_not_ws (c : Char) (h : isKeyChar c = true) : isWsC c = false := by
  cases hw : isWsC c with
  | false => rfl
  | true => rw [ws_not_keyChar c hw] at h; exact absurd h (by simp)

theorem takeWhile_stop (p : Char → Bool) (c : Char) (l : Str) (h : p c = false) :
    (c :: l).takeWhile p = [] := by
  simp [List.takeWhile_cons, h]

theorem dropWhile_stop (p : Char → Bool) (c : Char) (l : Str) (h : p c = false) :
    (c :: l).dropWhile p = c :: l := by
  simp [List.dropWhile_cons, h]

theorem tryMatch_token (w1 k w2 rest : Str)
    (hw1 : ∀ c ∈ w1, isWsC c = true) (hw2 : ∀ c ∈ w2, isWsC c = true)
    (hk : k ≠ []) (hkc : ∀ c ∈ k, isKeyChar c = true) :
    tryMatch ('{' :: '{' :: (w1 ++ k ++ w2 ++ '}' :: '}' :: rest)) =
      some ('{' :: '{' :: (w1 ++ k ++ w2) ++ '}' :: '}' :: [], k, rest) := by
  obtain ⟨kc, k', rfl⟩ : ∃ kc k', k = kc :: k' := by
    cases k with
    | nil => exact absurd rfl hk
    | cons kc k' => exact ⟨kc, k', rfl⟩
  have hkh : isKeyChar kc = true := hkc kc (by simp)
  have hk' : ∀ c ∈ k', isKeyChar c = true := fun c hc => hkc c (by simp [hc])
  have hW2k : (w2 ++ '}' :: '}' :: rest).takeWhile isKeyChar = [] := by
    cases w2 with
    | nil => exact takeWhile_stop _ _ _ (by decide)
    | cons wc w2' => exact takeWhile_stop _ _ _ (ws_not_keyChar wc (hw2 wc (by simp)))
  have hW2k' : (w2 ++ '}' :: '}' :: rest).dropWhile isKeyChar = w2 ++ '}' :: '}' :: rest := by
    cases w2 with
    | nil => exact dropWhile_stop _ _ _ (by decide)
    | cons wc w2' => exact dropWhile_stop _ _ _ (ws_not_keyChar wc (hw2 wc (by simp)))
  have e1 : (w1 ++ kc :: (k' ++ (w2 ++ '}' :: '}' :: rest))).takeWhile isWsC = w1 := by
    rw [List.takeWhile_append_of_pos hw1, takeWhile_stop _ _ _ (keyChar_not_ws kc hkh),
      List.append_nil]
  have e2 : (w1 ++ kc :: (k' ++ (w2 ++ '}' :: '}' :: rest))).dropWhile isWsC =
      kc :: (k' ++ (w2 ++ '}' :: '}' :: rest)) := by
    rw [List.dropWhile_append_of_pos hw1, dropWhile_stop _ _ _ (keyChar_not_ws kc hkh)]
  have e3 : (kc :: (k' ++ (w2 ++ '}' :: '}' :: rest))).takeWhile isKeyChar = kc :: k' := by
    rw [List.takeWhile_cons, if_pos hkh, List.takeWhile_append_of_pos hk', hW2k, List.append_nil]
  have e4 : (kc :: (k' ++ (w2 ++ '}' :: '}' :: rest))).dropWhile isKeyChar =
      w2 ++ '}' :: '}' :: rest := by
    rw [List.dropWhile_cons, if_pos hkh, List.dropWhile_append_of_pos hk', hW2k']
  have e5 : (w2 ++ '}' :: '}' :: rest).takeWhile isWsC = w2 := by
    rw [List.takeWhile_append_of_pos hw2, takeWhile_stop _ _ _ (by decide : isWsC '}' = false),
      List.append_nil]
  have e6 : (w2 ++ '}' :: '}' :: rest).dropWhile isWsC = '}' :: '}' :: rest := by
    rw [List.dropWhile_append_of_pos hw2, dropWhile_stop _ _ _ (by decide : isWsC '}' = false)]
  simp only [tryMatch, List.cons_append, List.append_assoc]
  rw [if_pos (by simp)]
  simp only [List.cons_append] at e1 e2 e3 e4 e5 e6
  rw [e1, e2, e3, e4, e5, e6]
  simp

theorem tryMatch_head_ne (c : Char) (cs : Str) (h : c ≠ '{') : tryMatch (c :: cs) = none := by
  cases cs with
  | nil => rfl
  | cons c2 r1 =>
    simp only [tryMatch]
    rw [if_neg]
    intro hc
    exact h hc.1

theorem applyTemplate_append_pre (vars : List (Str × Str)) :
    ∀ (p t : Str), (∀ c ∈ p, c ≠ '{') →
      applyTemplate (p ++ t) vars = p ++ applyTemplate t vars := by
  intro p
  induction p with
  | nil => intro t _; simp
  | cons c p ih =>
    intro t hp
    have hc : c ≠ '{' := hp c (by simp)
    rw [List.cons_append, applyTemplate_cons_none vars c (p ++ t) (tryMatch_head_ne c _ hc),
      ih t (fun x hx => hp x (by simp [hx]))]
    rfl

theorem applyTemplate_token (vars : List (Str × Str)) (w1 k w2 rest : Str)
    (hw1 : ∀ c ∈ w1, isWsC c = true) (hw2 : ∀ c ∈ w2, isWsC c = true)
    (hk : k ≠ []) (hkc : ∀ c ∈ k, isKeyChar c = true) :
    applyTemplate ('{' :: '{' :: (w1 ++ k ++ w2 ++ '}' :: '}' :: rest)) vars =
      (match lookupA (lowerStr k) vars with
       | some v => v
       | none => '{' :: '{' :: (w1 ++ k ++ w2) ++ '}' :: '}' :: []) ++ applyTemplate rest vars :=
  applyTemplate_cons_some vars '{' ('{' :: (w1 ++ k ++ w2 ++ '}' :: '}' :: rest)) _ k rest
    (tryMatch_token w1 k w2 rest hw1 hw2 hk hkc)

/-- C5: `applyTemplate` replaces every token `{{ key }}` (whitespace
inside the braces ignored, key case-folded before lookup) with
`variables[key]` when present and leaves the token verbatim when absent;
key matching is case-insensitive, as in the two concrete examples
`applyTemplate("Hi {{ghost}}", {name:"A"})` and
`applyTemplate("{{Name}}", {name:"Alice"})`. -/
theorem applyTemplate_subst_C5 :
    (∀ (p w1 k w2 rest : Str) (vars : List (Str × Str)),
      (∀ c ∈ p, c ≠ '{') → (∀ c ∈ w1, isWsC c = true) → (∀ c ∈ w2, isWsC c = true) →
      k ≠ [] → (∀ c ∈ k, isKeyChar c = true) →
      applyTemplate (p ++ '{' :: '{' :: (w1 ++ k ++ w2 ++ '}' :: '}' :: rest)) vars =
        p ++ ((match lookupA (lowerStr k) vars with
               | some v => v
               | none => '{' :: '{' :: (w1 ++ k ++ w2) ++ '}' :: '}' :: []) ++
          applyTemplate rest vars)) ∧
    applyTemplate (str "Hi " ++ '{' :: '{' :: str "ghost" ++ '}' :: '}' :: [])
        [(str "name", str "A")] =
      str "Hi " ++ '{' :: '{' :: str "ghost" ++ '}' :: '}' :: [] ∧
    applyTemplate ('{' :: '{' :: str "Name" ++ '}' :: '}' :: []) [(str "name", str "Alice")] =
      str "Alice" := by
  refine ⟨?_, by decide, by decide⟩
  intro p w1 k w2 rest vars hp hw1 hw2 hk hkc
  rw [applyTemplate_append_pre vars p _ hp, applyTemplate_token vars w1 k w2 rest hw1 hw2 hk hkc]

theorem applyTemplate_subst_C5_witness :
    applyTemplate (str "Hi " ++ '{' :: '{' :: ([' '] ++ str "naMe" ++ [] ++ '}' :: '}' :: str "!"))
        [(str "name", str "Bob")] =
      str "Hi " ++ (str "Bob" ++ applyTemplate (str "!") [(str "name", str "Bob")]) := by
  have h := applyTemplate_subst_C5.1 (str "Hi ") [' '] (str "naMe") [] (str "!")
    [(str "name", str "Bob")] (by decide) (by decide) (by decide) (by decide) (by decide)
  exact h.trans (by decide)

/-- C10: `applyTemplate` performs a single left-to-right pass — a
substituted value is spliced verbatim and scanning resumes after the
original token only, so text of the form `{{key}}` inside a substituted
value is never treated as a placeholder (no second-round expansion). -/
theorem applyTemplate_singlePass_C10 :
    (∀ (k v rest : Str) (vars : List (Str × Str)),
      k ≠ [] → (∀ c ∈ k, isKeyChar c = true) →
      lookupA (lowerStr k) vars = some v →
      applyTemplate ('{' :: '{' :: (k ++ '}' :: '}' :: rest)) vars =
        v ++ applyTemplate rest vars) ∧
    applyTemplate ('{' :: '{' :: str "a" ++ '}' :: '}' :: [])
        [(str "a", '{' :: '{' :: str "b" ++ '}' :: '}' :: []), (str "b", str "X")] =
      '{' :: '{' :: str "b" ++ '}' :: '}' :: [] := by
  refine ⟨?_, by decide⟩
  intro k v rest vars hk hkc hl
  have h := applyTemplate_token vars [] k [] rest (by simp) (by simp) hk hkc
  simp only [List.nil_append, List.append_nil] at h
  rw [h, hl]

theorem applyTemplate_singlePass_C10_witness :
    applyTemplate ('{' :: '{' :: (str "x" ++ '}' :: '}' :: []))
        [(str "x", '{' :: '{' :: str "y" ++ '}' :: '}' :: []), (str "y", str "Z")] =
      ('{' :: '{' :: str "y" ++ '}' :: '}' :: []) ++
        applyTemplate [] [(str "x", '{' :: '{' :: str "y" ++ '}' :: '}' :: []), (str "y", str "Z")] :=
  applyTemplate_singlePass_C10.1 (str "x") ('{' :: '{' :: str "y" ++ '}' :: '}' :: []) []
    [(str "x", '{' :: '{' :: str "y" ++ '}' :: '}' :: []), (str "y", str "Z")]
    (by decide) (by decide) (by decide)

/-! ## Template-parser claim C7 -/

/-- C7: subject detection follows the four-step priority chain over
non-blank top-level blocks: (a) a `Subject:` prefix on the first non-blank
block yields the captured group and removes the block; (b) else, when the
next non-blank block starts with `Dear<ws>` (case-insensitive), the first
non-blank block's text is the subject and that block is removed; (c) else
a top-level `H1` heading's text is the subject with the block retained;
(d) else the first 80 characters of the first non-blank block's text, the
block retained. -/
theorem detectSubject_chain_C7 :
    ∀ (pre : List Block) (b : Block) (post : List Block),
      (∀ x ∈ pre, blockBlank x = true) → blockBlank b = false →
      ((∀ cap, subjectPrefixOf (trimS b.text) = some cap →
          detectSubject (pre ++ b :: post) = (cap, pre ++ post)) ∧
       (subjectPrefixOf (trimS b.text) = none → dearNextB post = true →
          detectSubject (pre ++ b :: post) = (trimS b.text, pre ++ post)) ∧
       (subjectPrefixOf (trimS b.text) = none → dearNextB post = false → b.tag = str "H1" →
          detectSubject (pre ++ b :: post) = (trimS b.text, pre ++ b :: post)) ∧
       (subjectPrefixOf (trimS b.text) = none → dearNextB post = false → b.tag ≠ str "H1" →
          detectSubject (pre ++ b :: post) = ((trimS b.text).take 80, pre ++ b :: post))) := by
  intro pre
  induction pre with
  | nil =>
    intro b post _ hb
    refine ⟨?_, ?_, ?_, ?_⟩
    · intro cap hcap
      simp only [List.nil_append, detectSubject, hb, Bool.false_eq_true, if_false, hcap]
    · intro hnone hdear
      simp only [List.nil_append, detectSubject, hb, Bool.false_eq_true, if_false, hnone, hdear,
        if_true]
    · intro hnone hdear htag
      simp only [List.nil_append, detectSubject, hb, Bool.false_eq_true, if_false, hnone, hdear,
        htag, if_true]
    · intro hnone hdear htag
      simp only [List.nil_append, detectSubject, hb, Bool.false_eq_true, if_false, hnone, hdear,
        if_false]
      rw [if_neg htag]
  | cons x pre ih =>
    intro b post hpre hb
    have hx : blockBlank x = true := hpre x (by simp)
    have hpre' : ∀ y ∈ pre, blockBlank y = true := fun y hy => hpre y (by simp [hy])
    obtain ⟨iha, ihb, ihc, ihd⟩ := ih b post hpre' hb
    refine ⟨?_, ?_, ?_, ?_⟩
    · intro cap hcap
      simp only [List.cons_append, detectSubject, hx, if_true, List.append_eq, iha cap hcap]
    · intro hnone hdear
      simp only [List.cons_append, detectSubject, hx, if_true, List.append_eq, ihb hnone hdear]
    · intro hnone hdear htag
      simp only [List.cons_append, detectSubject, hx, if_true, List.append_eq,
        ihc hnone hdear htag]
    · intro hnone hdear htag
      simp only [List.cons_append, detectSubject, hx, if_true, List.append_eq,
        ihd hnone hdear htag]

theorem detectSubject_chain_C7_witness :
    subjectPrefixOf (trimS (str "Subject: Quarterly Update")) = some (str "Quarterly Update") ∧
    detectSubject [⟨str "P", str "Subject: Quarterly Update"⟩, ⟨str "P", str "Body"⟩] =
      (str "Quarterly Update", [⟨str "P", str "Body"⟩]) :=
  ⟨by decide,
   (detectSubject_chain_C7 [] ⟨str "P", str "Subject: Quarterly Update"⟩ [⟨str "P", str "Body"⟩]
      (by simp) (by decide)).1 (str "Quarterly Update") (by decide)⟩

/-! ## Greeting-normalization lemmas -/

theorem startsWithCI_length : ∀ (p s : Str), startsWithCI p s = true → p.length ≤ s.length := by
  intro p
  induction p with
  | nil => intro s _; simp
  | cons c p ih =>
    intro s h
    cases s with
    | nil => simp [startsWithCI] at h
    | cons c2 s =>
      simp only [startsWithCI, Bool.and_eq_true] at h
      have := ih s h.2
      simp only [List.length_cons]
      omega


theorem dearAttempt_rest_le :
    ∀ (tail : Str) (lc : Char) (rest : Str),
      dearAttempt tail = some (lc, rest) → rest.length ≤ tail.length := by
  intro tail lc rest h
  simp only [dearAttempt, List.span_eq_take_drop] at h
  split at h
  · simp at h
  · cases ht : tail.takeWhile (fun c => ¬ dearStops c) with
    | nil => rw [ht] at h; simp at h
    | cons b0 body =>
      cases hd : tail.dropWhile (fun c => ¬ dearStops c) with
      | nil =>
        rw [ht, hd] at h
        simp only [Option.some.injEq, Prod.mk.injEq] at h
        obtain ⟨h1, h2⟩ := h
        subst h2
        simp
      | cons c rest2 =>
        rw [ht, hd] at h
        have hlen : (c :: rest2).length ≤ tail.length := by
          rw [← hd]; exact dropWhile_len _ _
        simp only [List.length_cons] at hlen
        dsimp only at h
        split at h
        · simp only [Option.some.injEq, Prod.mk.injEq] at h
          obtain ⟨h1, h2⟩ := h
          subst h2
          omega
        · simp only [Option.some.injEq, Prod.mk.injEq] at h
          obtain ⟨h1, h2⟩ := h
          subst h2
          simp only [List.length_cons]
          omega

theorem dearTryK_rest_le (ws rest0 : Str) :
    ∀ (K : Nat) (lc : Char) (r : Str),
      dearTryK ws rest0 K = some (lc, r) → r.length ≤ ws.length + rest0.length := by
  intro K
  induction K with
  | zero => intro lc r h; simp [dearTryK] at h
  | succ k ih =>
    intro lc r h
    simp only [dearTryK] at h
    cases ha : dearAttempt (ws.drop (k + 1) ++ rest0) with
    | some pr =>
      rw [ha] at h
      simp only [Option.some.injEq] at h
      obtain ⟨lc2, r2⟩ := pr
      simp only [Prod.mk.injEq] at h
      obtain ⟨h1, h2⟩ := h
      subst h2
      have := dearAttempt_rest_le _ _ _ ha
      have hdl : (ws.drop (k + 1)).length ≤ ws.length := by
        rw [List.length_drop]; omega
      simp only [List.length_append] at this
      omega
    | none =>
      rw [ha] at h
      exact ih lc r h

theorem matchDear_rest_lt :
    ∀ (prev : Option Char) (l : Str) (lc : Char) (rest : Str),
      matchDear prev l = some (lc, rest) → rest.length < l.length := by
  intro prev l lc rest h
  simp only [matchDear, List.span_eq_take_drop] at h
  split at h
  · next hcond =>
    simp only [Bool.and_eq_true] at hcond
    have hlen4 : 4 ≤ l.length := by
      have := startsWithCI_length (str "dear") l hcond.2
      simpa [str] using this
    split at h
    · simp at h
    · have hb := dearTryK_rest_le ((l.drop 4).takeWhile isWsC) ((l.drop 4).dropWhile isWsC)
        ((l.drop 4).takeWhile isWsC).length lc rest h
      have hsum := congrArg List.length (List.takeWhile_append_dropWhile isWsC (l.drop 4))
      rw [List.length_append] at hsum
      have hdrop : (l.drop 4).length = l.length - 4 := List.length_drop _ _
      omega
  · simp at h

theorem ndgAux_nil : ∀ (f : Nat) (prev : Option Char), ndgAux f prev [] = [] := by
  intro f prev; cases f <;> rfl

theorem ndgAux_congr :
    ∀ (f1 f2 : Nat) (prev : Option Char) (l : Str), l.length ≤ f1 → l.length ≤ f2 →
      ndgAux f1 prev l = ndgAux f2 prev l := by
  intro f1
  induction f1 with
  | zero =>
    intro f2 prev l h1 _
    have : l = [] := by
      cases l with
      | nil => rfl
      | cons c cs => simp at h1
    subst this
    rw [ndgAux_nil, ndgAux_nil]
  | succ f1 ih =>
    intro f2 prev l h1 h2
    cases l with
    | nil => rw [ndgAux_nil, ndgAux_nil]
    | cons c cs =>
      cases f2 with
      | zero => simp at h2
      | succ f2 =>
        simp only [ndgAux]
        cases hm : matchDear prev (c :: cs) with
        | none =>
          dsimp only
          rw [ih f2 (some c) cs (by simp at h1; omega) (by simp at h2; omega)]
        | some pr =>
          obtain ⟨lc, rest⟩ := pr
          have hlt := matchDear_rest_lt prev (c :: cs) lc rest hm
          simp only [List.length_cons] at hlt h1 h2
          dsimp only
          rw [ih f2 (some lc) rest (by omega) (by omega)]

/-- One scanning step of `normalizeDearGreeting` with the fuel argument
abstracted away. -/
def ndgRun (prev : Option Char) (l : Str) : Str := ndgAux l.length prev l

theorem normalizeDear_eq_run (l : Str) : normalizeDearGreeting l = ndgRun none l := rfl

theorem ndgRun_cons_match (prev : Option Char) (c : Char) (cs : Str) (lc : Char) (rest : Str)
    (hm : matchDear prev (c :: cs) = some (lc, rest)) :
    ndgRun prev (c :: cs) = dearRepl ++ ndgRun (some lc) rest := by
  show ndgAux (c :: cs).length prev (c :: cs) = dearRepl ++ ndgAux rest.length (some lc) rest
  have hlt := matchDear_rest_lt prev (c :: cs) lc rest hm
  simp only [List.length_cons] at hlt ⊢
  simp only [ndgAux, hm]
  rw [ndgAux_congr cs.length rest.length (some lc) rest (by omega) (by omega)]

theorem ndgRun_cons_none (prev : Option Char) (c : Char) (cs : Str)
    (hm : matchDear prev (c :: cs) = none) :
    ndgRun prev (c :: cs) = c :: ndgRun (some c) cs := by
  show ndgAux (c :: cs).length prev (c :: cs) = c :: ndgAux cs.length (some c) cs
  simp only [List.length_cons, ndgAux, hm]

theorem swci_dear_head (rest : Str) :
    startsWithCI (str "dear") ('D' :: 'e' :: 'a' :: 'r' :: rest) = true := by
  simp only [str, startsWithCI]
  decide

theorem dearAttempt_greeting (c0 : Char) (n' : Str) (p : Char)
    (hp : p = ',' ∨ p = ':')
    (hstops : ∀ c ∈ c0 :: n', dearStops c = false)
    (hph : startsWithCI placeholderName ((c0 :: n') ++ [p]) = false) :
    dearAttempt ((c0 :: n') ++ [p]) = some (p, []) := by
  have hall : ∀ c ∈ c0 :: n', (decide (¬ dearStops c = true)) = true := by
    intro c hc
    simp [hstops c hc]
  have hpstop : dearStops p = true := by
    rcases hp with rfl | rfl <;> decide
  have ht : ((c0 :: n') ++ [p]).takeWhile (fun c => ¬ dearStops c) = c0 :: n' := by
    rw [List.takeWhile_append_of_pos hall, takeWhile_stop _ _ _ (by simp [hpstop]),
      List.append_nil]
  have hd : ((c0 :: n') ++ [p]).dropWhile (fun c => ¬ dearStops c) = [p] := by
    rw [List.dropWhile_append_of_pos hall, dropWhile_stop _ _ _ (by simp [hpstop])]
  simp only [dearAttempt, List.span_eq_take_drop]
  rw [if_neg (by simpa using hph)]
  rw [ht, hd]
  dsimp only
  rcases hp with rfl | rfl <;> rw [if_pos (by decide)]

theorem matchDear_greeting (c0 : Char) (n' : Str) (p : Char)
    (hp : p = ',' ∨ p = ':')
    (hhead : isWsC c0 = false)
    (hstops : ∀ c ∈ c0 :: n', dearStops c = false)
    (hph : startsWithCI placeholderName ((c0 :: n') ++ [p]) = false) :
    matchDear none ('D' :: 'e' :: 'a' :: 'r' :: ' ' :: ((c0 :: n') ++ [p])) = some (p, []) := by
  have hdrop : ('D' :: 'e' :: 'a' :: 'r' :: ' ' :: ((c0 :: n') ++ [p])).drop 4 =
      ' ' :: ((c0 :: n') ++ [p]) := rfl
  have ht : (' ' :: ((c0 :: n') ++ [p])).takeWhile isWsC = [' '] := by
    rw [List.takeWhile_cons]
    rw [if_pos (by decide)]
    rw [show (c0 :: n') ++ [p] = c0 :: (n' ++ [p]) from rfl, takeWhile_stop _ _ _ hhead]
  have hd : (' ' :: ((c0 :: n') ++ [p])).dropWhile isWsC = (c0 :: n') ++ [p] := by
    rw [List.dropWhile_cons]
    rw [if_pos (by decide)]
    rw [show (c0 :: n') ++ [p] = c0 :: (n' ++ [p]) from rfl, dropWhile_stop _ _ _ hhead]
  have hsw := swci_dear_head (' ' :: ((c0 :: n') ++ [p]))
  simp only [matchDear, List.span_eq_take_drop, hdrop, ht, hd]
  rw [if_pos (by simpa using hsw)]
  have hk1 : dearTryK [' '] ((c0 :: n') ++ [p]) [' '].length = some (p, []) := by
    show dearTryK [' '] ((c0 :: n') ++ [p]) 1 = some (p, [])
    have hstep : dearTryK [' '] ((c0 :: n') ++ [p]) 1 =
        match dearAttempt ([' '].drop 1 ++ ((c0 :: n') ++ [p])) with
        | some r => some r
        | none => dearTryK [' '] ((c0 :: n') ++ [p]) 0 := rfl
    rw [hstep, show ([' '].drop 1 ++ ((c0 :: n') ++ [p])) = (c0 :: n') ++ [p] from rfl,
      dearAttempt_greeting c0 n' p hp hstops hph]
  rw [if_neg (by simp)]
  exact hk1

/-- C6 counterexample: the greeting `Dear {{name}} Smith,` has a name
portion (`{{name}} Smith`) that is not exactly the placeholder, so the
claim requires it to be rewritten to `Dear {{name}},`; the code's negative
look-ahead `(?!{{name}})` rejects any name portion merely *starting* with
the placeholder, so the text is left unchanged and in particular differs
from the rewrite the claim prescribes. -/
theorem normalizeDear_C6_cex :
    normalizeDearGreeting (str "Dear " ++ placeholderName ++ str " Smith,") =
      str "Dear " ++ placeholderName ++ str " Smith," ∧
    str "Dear " ++ placeholderName ++ str " Smith," ≠ dearRepl := by
  constructor
  · decide
  · decide

/-- C6 (amended): greeting normalization rewrites a `Dear <name><,|:>`
occurrence (name non-empty, free of `,`/`:`/newline, not beginning with
whitespace) into `Dear {{name}},` with the punctuation normalized to a
comma, and is idempotent on such texts; an occurrence is skipped whenever
the name portion after the whitespace *begins with* the placeholder
`{{name}}` (not only when it is exactly the placeholder), so
already-normalized text `Dear {{name}},` is unchanged; every occurrence is
rewritten, as in the two-greeting example. -/
theorem normalizeDear_C6_amended :
    (∀ (n : Str) (p : Char), (p = ',' ∨ p = ':') → n ≠ [] →
      (∀ c ∈ n, dearStops c = false) → isWsC (n.headD ' ') = false →
      startsWithCI placeholderName (n ++ [p]) = false →
      normalizeDearGreeting (str "Dear " ++ n ++ [p]) = dearRepl ∧
      normalizeDearGreeting (normalizeDearGreeting (str "Dear " ++ n ++ [p])) =
        normalizeDearGreeting (str "Dear " ++ n ++ [p])) ∧
    normalizeDearGreeting dearRepl = dearRepl ∧
    normalizeDearGreeting (str "Dear " ++ placeholderName ++ str " Smith,") =
      str "Dear " ++ placeholderName ++ str " Smith," ∧
    normalizeDearGreeting (str "Dear Ann Lee, hi! Dear Bo:") =
      dearRepl ++ str " hi! " ++ dearRepl := by
  refine ⟨?_, by decide, by decide, by decide⟩
  intro n p hp hn hstops hhead hph
  obtain ⟨c0, n', rfl⟩ : ∃ c0 n', n = c0 :: n' := by
    cases n with
    | nil => exact absurd rfl hn
    | cons c0 n' => exact ⟨c0, n', rfl⟩
  have hhead' : isWsC c0 = false := by simpa using hhead
  have hmain : normalizeDearGreeting (str "Dear " ++ (c0 :: n') ++ [p]) = dearRepl := by
    have hm := matchDear_greeting c0 n' p hp hhead' hstops (by simpa using hph)
    have hshape : str "Dear " ++ (c0 :: n') ++ [p] =
        'D' :: 'e' :: 'a' :: 'r' :: ' ' :: ((c0 :: n') ++ [p]) := by
      simp [str]
    rw [hshape, normalizeDear_eq_run,
      ndgRun_cons_match none 'D' ('e' :: 'a' :: 'r' :: ' ' :: ((c0 :: n') ++ [p])) p [] hm]
    rw [show ndgRun (some p) [] = [] from rfl, List.append_nil]
  refine ⟨hmain, ?_⟩
  rw [hmain]
  rw [show normalizeDearGreeting dearRepl = dearRepl from by decide]

theorem normalizeDear_C6_witness :
    normalizeDearGreeting (str "Dear " ++ str "Bob" ++ [':']) = dearRepl :=
  ((normalizeDear_C6_amended.1 (str "Bob") ':' (Or.inr rfl) (by decide) (by decide) (by decide)
    (by decide)).1)

theorem isLowerAZ_or (c : Char) (h : isLowerAZ c = true) :
    c = 'a' ∨ c = 'b' ∨ c = 'c' ∨ c = 'd' ∨ c = 'e' ∨ c = 'f' ∨ c = 'g' ∨ c = 'h' ∨ c = 'i' ∨
    c = 'j' ∨ c = 'k' ∨ c = 'l' ∨ c = 'm' ∨ c = 'n' ∨ c = 'o' ∨ c = 'p' ∨ c = 'q' ∨ c = 'r' ∨
    c = 's' ∨ c = 't' ∨ c = 'u' ∨ c = 'v' ∨ c = 'w' ∨ c = 'x' ∨ c = 'y' ∨ c = 'z' := by
  simp only [isLowerAZ, Bool.or_eq_true, beq_iff_eq] at h
  rcases h with (((((((((((((((((((((((((rfl | rfl) | rfl) | rfl) | rfl) | rfl) | rfl) | rfl) | rfl) | rfl) | rfl) | rfl) | rfl) | rfl) | rfl) | rfl) | rfl) | rfl) | rfl) | rfl) | rfl) | rfl) | rfl) | rfl) | rfl) | rfl) | h26 <;> subst_vars <;> simp

theorem isUpperAZ_or (c : Char) (h : isUpperAZ c = true) :
    c = 'A' ∨ c = 'B' ∨ c = 'C' ∨ c = 'D' ∨ c = 'E' ∨ c = 'F' ∨ c = 'G' ∨ c = 'H' ∨ c = 'I' ∨
    c = 'J' ∨ c = 'K' ∨ c = 'L' ∨ c = 'M' ∨ c = 'N' ∨ c = 'O' ∨ c = 'P' ∨ c = 'Q' ∨ c = 'R' ∨
    c = 'S' ∨ c = 'T' ∨ c = 'U' ∨ c = 'V' ∨ c = 'W' ∨ c = 'X' ∨ c = 'Y' ∨ c = 'Z' := by
  simp only [isUpperAZ, Bool.or_eq_true, beq_iff_eq] at h
  rcases h with (((((((((((((((((((((((((rfl | rfl) | rfl) | rfl) | rfl) | rfl) | rfl) | rfl) | rfl) | rfl) | rfl) | rfl) | rfl) | rfl) | rfl) | rfl) | rfl) | rfl) | rfl) | rfl) | rfl) | rfl) | rfl) | rfl) | rfl) | rfl) | h26 <;> subst_vars <;> simp

theorem upC_of_not (c : Char) (h : isLowerAZ c = false) : upC c = c := by
  have h1 : c ≠ 'a' := fun hc => by subst hc; exact absurd h (by decide)
  have h2 : c ≠ 'b' := fun hc => by subst hc; exact absurd h (by decide)
  have h3 : c ≠ 'c' := fun hc => by subst hc; exact absurd h (by decide)
  have h4 : c ≠ 'd' := fun hc => by subst hc; exact absurd h (by decide)
  have h5 : c ≠ 'e' := fun hc => by subst hc; exact absurd h (by decide)
  have h6 : c ≠ 'f' := fun hc => by subst hc; exact absurd h (by decide)
  have h7 : c ≠ 'g' := fun hc => by subst hc; exact absurd h (by decide)
  have h8 : c ≠ 'h' := fun hc => by subst hc; exact absurd h (by decide)
  have h9 : c ≠ 'i' := fun hc => by subst hc; exact absurd h (by decide)
  have h10 : c ≠ 'j' := fun hc => by subst hc; exact absurd h (by decide)
  have h11 : c ≠ 'k' := fun hc => by subst hc; exact absurd h (by decide)
  have h12 : c ≠ 'l' := fun hc => by subst hc; exact absurd h (by decide)
  have h13 : c ≠ 'm' := fun hc => by subst hc; exact absurd h (by decide)
  have h14 : c ≠ 'n' := fun hc => by subst hc; exact absurd h (by decide)
  have h15 : c ≠ 'o' := fun hc => by subst hc; exact absurd h (by decide)
  have h16 : c ≠ 'p' := fun hc => by subst hc; exact absurd h (by decide)
  have h17 : c ≠ 'q' := fun hc => by subst hc; exact absurd h (by decide)
  have h18 : c ≠ 'r' := fun hc => by subst hc; exact absurd h (by decide)
  have h19 : c ≠ 's' := fun hc => by subst hc; exact absurd h (by decide)
  have h20 : c ≠ 't' := fun hc => by subst hc; exact absurd h (by decide)
  have h21 : c ≠ 'u' := fun hc => by subst hc; exact absurd h (by decide)
  have h22 : c ≠ 'v' := fun hc => by subst hc; exact absurd h (by decide)
  have h23 : c ≠ 'w' := fun hc => by subst hc; exact absurd h (by decide)
  have h24 : c ≠ 'x' := fun hc => by subst hc; exact absurd h (by decide)
  have h25 : c ≠ 'y' := fun hc => by subst hc; exact absurd h (by decide)
  have h26 : c ≠ 'z' := fun hc => by subst hc; exact absurd h (by decide)
  unfold upC
  rw [if_neg h1, if_neg h2, if_neg h3, if_neg h4, if_neg h5, if_neg h6, if_neg h7, if_neg h8, if_neg h9, if_neg h10, if_neg h11, if_neg h12, if_neg h13, if_neg h14, if_neg h15, if_neg h16, if_neg h17, if_neg h18, if_neg h19, if_neg h20, if_neg h21, if_neg h22, if_neg h23, if_neg h24, if_neg h25, if_neg h26]

theorem lowC_of_not (c : Char) (h : isUpperAZ c = false) : lowC c = c := by
  have h1 : c ≠ 'A' := fun hc => by subst hc; exact absurd h (by decide)
  have h2 : c ≠ 'B' := fun hc => by subst hc; exact absurd h (by decide)
  have h3 : c ≠ 'C' := fun hc => by subst hc; exact absurd h (by decide)
  have h4 : c ≠ 'D' := fun hc => by subst hc; exact absurd h (by decide)
  have h5 : c ≠ 'E' := fun hc => by subst hc; exact absurd h (by decide)
  have h6 : c ≠ 'F' := fun hc => by subst hc; exact absurd h (by decide)
  have h7 : c ≠ 'G' := fun hc => by subst hc; exact absurd h (by decide)
  have h8 : c ≠ 'H' := fun hc => by subst hc; exact absurd h (by decide)
  have h9 : c ≠ 'I' := fun hc => by subst hc; exact absurd h (by decide)
  have h10 : c ≠ 'J' := fun hc => by subst hc; exact absurd h (by decide)
  have h11 : c ≠ 'K' := fun hc => by subst hc; exact absurd h (by decide)
  have h12 : c ≠ 'L' := fun hc => by subst hc; exact absurd h (by decide)
  have h13 : c ≠ 'M' := fun hc => by subst hc; exact absurd h (by decide)
  have h14 : c ≠ 'N' := fun hc => by subst hc; exact absurd h (by decide)
  have h15 : c ≠ 'O' := fun hc => by subst hc; exact absurd h (by decide)
  have h16 : c ≠ 'P' := fun hc => by subst hc; exact absurd h (by decide)
  have h17 : c ≠ 'Q' := fun hc => by subst hc; exact absurd h (by decide)
  have h18 : c ≠ 'R' := fun hc => by subst hc; exact absurd h (by decide)
  have h19 : c ≠ 'S' := fun hc => by subst hc; exact absurd h (by decide)
  have h20 : c ≠ 'T' := fun hc => by subst hc; exact absurd h (by decide)
  have h21 : c ≠ 'U' := fun hc => by subst hc; exact absurd h (by decide)
  have h22 : c ≠ 'V' := fun hc => by subst hc; exact absurd h (by decide)
  have h23 : c ≠ 'W' := fun hc => by subst hc; exact absurd h (by decide)
  have h24 : c ≠ 'X' := fun hc => by subst hc; exact absurd h (by decide)
  have h25 : c ≠ 'Y' := fun hc => by subst hc; exact absurd h (by decide)
  have h26 : c ≠ 'Z' := fun hc => by subst hc; exact absurd h (by decide)
  unfold lowC
  rw [if_neg h1, if_neg h2, if_neg h3, if_neg h4, if_neg h5, if_neg h6, if_neg h7, if_neg h8, if_neg h9, if_neg h10, if_neg h11, if_neg h12, if_neg h13, if_neg h14, if_neg h15, if_neg h16, if_neg h17, if_neg h18, if_neg h19, if_neg h20, if_neg h21, if_neg h22, if_neg h23, if_neg h24, if_neg h25, if_neg h26]

theorem upC_upC (c : Char) : upC (upC c) = upC c := by
  cases h : isLowerAZ c with
  | true => rcases isLowerAZ_or c h with rfl | rfl | rfl | rfl | rfl | rfl | rfl | rfl | rfl | rfl | rfl | rfl | rfl | rfl | rfl | rfl | rfl | rfl | rfl | rfl | rfl | rfl | rfl | rfl | rfl | rfl <;> decide
  | false => rw [upC_of_not c h, upC_of_not c h]

theorem lowC_lowC (c : Char) : lowC (lowC c) = lowC c := by
  cases h : isUpperAZ c with
  | true => rcases isUpperAZ_or c h with rfl | rfl | rfl | rfl | rfl | rfl | rfl | rfl | rfl | rfl | rfl | rfl | rfl | rfl | rfl | rfl | rfl | rfl | rfl | rfl | rfl | rfl | rfl | rfl | rfl | rfl <;> decide
  | false => rw [lowC_of_not c h, lowC_of_not c h]

theorem isWsC_upC (c : Char) : isWsC (upC c) = isWsC c := by
  cases h : isLowerAZ c with
  | true => rcases isLowerAZ_or c h with rfl | rfl | rfl | rfl | rfl | rfl | rfl | rfl | rfl | rfl | rfl | rfl | rfl | rfl | rfl | rfl | rfl | rfl | rfl | rfl | rfl | rfl | rfl | rfl | rfl | rfl <;> decide
  | false => rw [upC_of_not c h]

theorem isWsC_lowC (c : Char) : isWsC (lowC c) = isWsC c := by
  cases h : isUpperAZ c with
  | true => rcases isUpperAZ_or c h with rfl | rfl | rfl | rfl | rfl | rfl | rfl | rfl | rfl | rfl | rfl | rfl | rfl | rfl | rfl | rfl | rfl | rfl | rfl | rfl | rfl | rfl | rfl | rfl | rfl | rfl <;> decide
  | false => rw [lowC_of_not c h]

theorem isDelimC_upC (c : Char) : isDelimC (upC c) = isDelimC c := by
  cases h : isLowerAZ c with
  | true => rcases isLowerAZ_or c h with rfl | rfl | rfl | rfl | rfl | rfl | rfl | rfl | rfl | rfl | rfl | rfl | rfl | rfl | rfl | rfl | rfl | rfl | rfl | rfl | rfl | rfl | rfl | rfl | rfl | rfl <;> decide
  | false => rw [upC_of_not c h]

theorem isDelimC_lowC (c : Char) : isDelimC (lowC c) = isDelimC c := by
  cases h : isUpperAZ c with
  | true => rcases isUpperAZ_or c h with rfl | rfl | rfl | rfl | rfl | rfl | rfl | rfl | rfl | rfl | rfl | rfl | rfl | rfl | rfl | rfl | rfl | rfl | rfl | rfl | rfl | rfl | rfl | rfl | rfl | rfl <;> decide
  | false => rw [lowC_of_not c h]

theorem dropWhile_idem (p : Char → Bool) : ∀ l : Str, (l.dropWhile p).dropWhile p = l.dropWhile p := by
  intro l
  induction l with
  | nil => rfl
  | cons c cs ih =>
    by_cases h : p c
    · rw [List.dropWhile_cons, if_pos h, ih]
    · rw [List.dropWhile_cons, if_neg h, List.dropWhile_cons, if_neg h]

theorem trimR_cons (c : Char) (cs : Str) :
    trimR (c :: cs) = if (trimR cs).isEmpty && isWsC c then [] else c :: trimR cs := rfl

theorem trimR_idem : ∀ l : Str, trimR (trimR l) = trimR l := by
  intro l
  induction l with
  | nil => rfl
  | cons c cs ih =>
    rw [trimR_cons c cs]
    cases h : ((trimR cs).isEmpty && isWsC c) with
    | true => simp [h]; rfl
    | false =>
      simp only [h, Bool.false_eq_true, if_false]
      rw [trimR_cons c (trimR cs), ih, h]
      simp

theorem trimL_trimR (x : Str) (hx : trimL x = x) : trimL (trimR x) = trimR x := by
  cases x with
  | nil => rfl
  | cons c cs =>
    have hc : isWsC c = false := by
      cases h : isWsC c with
      | false => rfl
      | true =>
        exfalso
        unfold trimL at hx
        rw [List.dropWhile_cons, if_pos (by simp [h])] at hx
        have h1 := congrArg List.length hx
        have h2 := dropWhile_len isWsC cs
        simp only [List.length_cons] at h1
        omega
    rw [trimR_cons c cs]
    cases h : ((trimR cs).isEmpty && isWsC c) with
    | true => simp [h]; rfl
    | false =>
      simp only [h, Bool.false_eq_true, if_false]
      unfold trimL
      rw [List.dropWhile_cons, if_neg (by simp [hc])]

theorem trimS_trimS (l : Str) : trimS (trimS l) = trimS l := by
  unfold trimS
  rw [trimL_trimR (trimL l) (dropWhile_idem isWsC l), trimR_idem]

/-- Fixed points of the capitalization pass: every non-delimiter character
already carries the case `tcGo` would give it at that position. -/
def tcNorm (b : Bool) : Str → Bool
  | [] => true
  | c :: cs =>
    if isDelimC c then tcNorm true cs
    else ((if b then upC c else lowC c) == c) && tcNorm false cs

theorem tcNorm_fix : ∀ (l : Str) (b : Bool), tcNorm b l = true → tcGo b l = l := by
  intro l
  induction l with
  | nil => intro b _; rfl
  | cons c cs ih =>
    intro b h
    cases hd : isDelimC c with
    | true =>
      simp only [tcNorm, hd, if_true] at h
      simp only [tcGo, hd, if_true, ih true h]
    | false =>
      simp only [tcNorm, hd, Bool.false_eq_true, if_false, Bool.and_eq_true, beq_iff_eq] at h
      simp only [tcGo, hd, Bool.false_eq_true, if_false, ih false h.2, h.1]

theorem tcNorm_tcGo : ∀ (l : Str) (b : Bool), tcNorm b (tcGo b l) = true := by
  intro l
  induction l with
  | nil => intro b; rfl
  | cons c cs ih =>
    intro b
    cases hd : isDelimC c with
    | true => simp only [tcGo, hd, if_true, tcNorm, ih true]
    | false =>
      cases b with
      | true =>
        simp only [tcGo, if_true, tcNorm, isDelimC_upC c, hd, Bool.false_eq_true, if_false,
          upC_upC c, beq_self_eq_true, Bool.true_and]
        exact ih false
      | false =>
        simp only [tcGo, if_false, tcNorm, isDelimC_lowC c, hd, Bool.false_eq_true,
          lowC_lowC c, beq_self_eq_true, Bool.true_and]
        exact ih false

theorem tcNorm_cwGo : ∀ (l : Str) (b w : Bool), (w = true → b = true) → tcNorm b l = true →
    tcNorm b (cwGo w l) = true := by
  intro l
  induction l with
  | nil => intro b w _ _; cases w <;> rfl
  | cons c cs ih =>
    intro b w hinv h
    cases hws : isWsC c with
    | true =>
      have hdel : isDelimC c = true := by simp [isDelimC, hws]
      simp only [tcNorm, hdel, if_true] at h
      cases w with
      | true =>
        have hb : b = true := hinv rfl
        subst hb
        simp only [cwGo, hws, if_true]
        exact ih true true (fun _ => rfl) h
      | false =>
        simp only [cwGo, hws, if_true, Bool.false_eq_true, if_false, tcNorm]
        exact ih true true (fun _ => rfl) h
    | false =>
      cases hd : isDelimC c with
      | true =>
        simp only [tcNorm, hd, if_true] at h
        simp only [cwGo, hws, Bool.false_eq_true, if_false, tcNorm, hd, if_true]
        exact ih true false (by simp) h
      | false =>
        simp only [tcNorm, hd, Bool.false_eq_true, if_false, Bool.and_eq_true] at h
        simp only [cwGo, hws, Bool.false_eq_true, if_false, tcNorm, hd, Bool.and_eq_true]
        exact ⟨h.1, ih false false (by simp) h.2⟩

theorem tcNorm_trimR : ∀ (l : Str) (b : Bool), tcNorm b l = true → tcNorm b (trimR l) = true := by
  intro l
  induction l with
  | nil => intro b _; rfl
  | cons c cs ih =>
    intro b h
    rw [trimR_cons c cs]
    cases hcond : ((trimR cs).isEmpty && isWsC c) with
    | true => simp [hcond]; rfl
    | false =>
      simp only [hcond, Bool.false_eq_true, if_false]
      cases hd : isDelimC c with
      | true =>
        simp only [tcNorm, hd, if_true] at h ⊢
        exact ih true h
      | false =>
        simp only [tcNorm, hd, Bool.false_eq_true, if_false, Bool.and_eq_true] at h ⊢
        exact ⟨h.1, ih false h.2⟩

theorem tcNorm_trimL : ∀ (l : Str), tcNorm true l = true → tcNorm true (trimL l) = true := by
  intro l
  induction l with
  | nil => intro _; rfl
  | cons c cs ih =>
    intro h
    unfold trimL
    cases hws : isWsC c with
    | true =>
      have hdel : isDelimC c = true := by simp [isDelimC, hws]
      simp only [tcNorm, hdel, if_true] at h
      rw [List.dropWhile_cons, if_pos (by simp [hws])]
      exact ih h
    | false =>
      rw [List.dropWhile_cons, if_neg (by simp [hws])]
      exact h

/-- Fixed points of the whitespace-collapsing pass: every whitespace
character is a single `' '` not preceded by whitespace. -/
def cwNorm (w : Bool) : Str → Bool
  | [] => true
  | c :: cs =>
    if isWsC c then (!w && (c == ' ')) && cwNorm true cs
    else cwNorm false cs

theorem cwNorm_fix : ∀ (l : Str) (w : Bool), cwNorm w l = true → cwGo w l = l := by
  intro l
  induction l with
  | nil => intro w _; rfl
  | cons c cs ih =>
    intro w h
    cases hws : isWsC c with
    | true =>
      simp only [cwNorm, hws, if_true, Bool.and_eq_true, Bool.not_eq_true', beq_iff_eq] at h
      obtain ⟨⟨hw, hsp⟩, hrest⟩ := h
      subst hw
      subst hsp
      rw [show cwGo false (' ' :: cs) = ' ' :: cwGo true cs from rfl, ih true hrest]
    | false =>
      simp only [cwNorm, hws, Bool.false_eq_true, if_false] at h
      simp only [cwGo, hws, Bool.false_eq_true, if_false, ih false h]

theorem cwNorm_cwGo : ∀ (l : Str) (w : Bool), cwNorm w (cwGo w l) = true := by
  intro l
  induction l with
  | nil => intro w; rfl
  | cons c cs ih =>
    intro w
    cases hws : isWsC c with
    | true =>
      cases w with
      | true => simp only [cwGo, hws, if_true]; exact ih true
      | false =>
        simp only [cwGo, hws, if_true, Bool.false_eq_true, if_false, cwNorm]
        simp only [show isWsC ' ' = true from rfl, if_true, Bool.not_false, beq_self_eq_true,
          Bool.and_self, Bool.true_and]
        exact ih true
    | false =>
      simp only [cwGo, hws, Bool.false_eq_true, if_false, cwNorm]
      exact ih false

theorem cwNorm_trimR : ∀ (l : Str) (w : Bool), cwNorm w l = true → cwNorm w (trimR l) = true := by
  intro l
  induction l with
  | nil => intro w _; rfl
  | cons c cs ih =>
    intro w h
    rw [trimR_cons c cs]
    cases hcond : ((trimR cs).isEmpty && isWsC c) with
    | true => simp [hcond]; rfl
    | false =>
      simp only [hcond, Bool.false_eq_true, if_false]
      cases hws : isWsC c with
      | true =>
        simp only [cwNorm, hws, if_true, Bool.and_eq_true] at h ⊢
        exact ⟨h.1, ih true h.2⟩
      | false =>
        simp only [cwNorm, hws, Bool.false_eq_true, if_false] at h ⊢
        exact ih false h

theorem cwNorm_trimL : ∀ (l : Str) (w : Bool), cwNorm w l = true → cwNorm false (trimL l) = true := by
  intro l
  induction l with
  | nil => intro w _; rfl
  | cons c cs ih =>
    intro w h
    unfold trimL
    cases hws : isWsC c with
    | true =>
      simp only [cwNorm, hws, if_true, Bool.and_eq_true] at h
      rw [List.dropWhile_cons, if_pos (by simp [hws])]
      exact ih true h.2
    | false =>
      rw [List.dropWhile_cons, if_neg (by simp [hws])]
      simp only [cwNorm, hws, Bool.false_eq_true, if_false] at h ⊢
      exact h

theorem delim_false_ws (c : Char) (h : isDelimC c = false) : isWsC c = false := by
  simp only [isDelimC, Bool.or_eq_false_iff] at h
  exact h.2

theorem titleCase_fix (s : Str) : titleCaseName (titleCaseName s) = titleCaseName s := by
  cases h0 : (trimS s).isEmpty with
  | true =>
    have h1 : titleCaseName s = [] := by unfold titleCaseName; simp [h0]
    rw [h1]
    rfl
  | false =>
    have hts : titleCaseName s = trimS (cwGo false (tcGo true (trimS s))) := by
      unfold titleCaseName
      simp [h0]
    have htc : tcGo true (trimS (cwGo false (tcGo true (trimS s)))) =
        trimS (cwGo false (tcGo true (trimS s))) :=
      tcNorm_fix _ true (tcNorm_trimR _ true (tcNorm_trimL _
        (tcNorm_cwGo (tcGo true (trimS s)) true false (by simp) (tcNorm_tcGo (trimS s) true))))
    have hcw : cwGo false (trimS (cwGo false (tcGo true (trimS s)))) =
        trimS (cwGo false (tcGo true (trimS s))) :=
      cwNorm_fix _ false (cwNorm_trimR _ false
        (cwNorm_trimL _ false (cwNorm_cwGo (tcGo true (trimS s)) false)))
    have hts2 : trimS (trimS (cwGo false (tcGo true (trimS s)))) =
        trimS (cwGo false (tcGo true (trimS s))) :=
      trimS_trimS _
    rw [hts]
    unfold titleCaseName
    cases hy : (trimS (trimS (cwGo false (tcGo true (trimS s))))).isEmpty with
    | true =>
      simp only [hy, if_true]
      rw [hts2] at hy
      exact (List.isEmpty_iff.mp hy).symm
    | false =>
      simp only [hy, Bool.false_eq_true, if_false]
      rw [hts2, htc, hcw, hts2]

theorem tcGo_low_run : ∀ (a rest : Str), (∀ c ∈ a, isDelimC c = false) →
    tcGo false (a ++ rest) = a.map lowC ++ tcGo false rest := by
  intro a
  induction a with
  | nil => intro rest _; simp
  | cons c a ih =>
    intro rest h
    have hc : isDelimC c = false := h c (by simp)
    rw [List.cons_append]
    show tcGo false (c :: (a ++ rest)) = _
    simp only [tcGo, hc, Bool.false_eq_true, if_false, List.map_cons, List.cons_append]
    rw [ih rest (fun x hx => h x (by simp [hx]))]

theorem tcGo_run : ∀ (a rest : Str), a ≠ [] → (∀ c ∈ a, isDelimC c = false) →
    tcGo true (a ++ rest) = capSeg a ++ tcGo false rest := by
  intro a rest ha h
  cases a with
  | nil => exact absurd rfl ha
  | cons c a =>
    have hc : isDelimC c = false := h c (by simp)
    rw [List.cons_append]
    show tcGo true (c :: (a ++ rest)) = _
    simp only [tcGo, hc, Bool.false_eq_true, if_false, if_true, capSeg, List.cons_append]
    rw [tcGo_low_run a rest (fun x hx => h x (by simp [hx]))]

theorem cwGo_nows : ∀ (l : Str) (w : Bool), (∀ c ∈ l, isWsC c = false) → cwGo w l = l := by
  intro l
  induction l with
  | nil => intro w _; rfl
  | cons c cs ih =>
    intro w h
    have hc : isWsC c = false := h c (by simp)
    simp only [cwGo, hc, Bool.false_eq_true, if_false]
    rw [ih false (fun x hx => h x (by simp [hx]))]

theorem trimL_nows (l : Str) (h : ∀ c ∈ l, isWsC c = false) : trimL l = l := by
  cases l with
  | nil => rfl
  | cons c cs =>
    unfold trimL
    rw [List.dropWhile_cons, if_neg (by simp [h c (by simp)])]

theorem trimR_nows : ∀ (l : Str), (∀ c ∈ l, isWsC c = false) → trimR l = l := by
  intro l
  induction l with
  | nil => intro _; rfl
  | cons c cs ih =>
    intro h
    rw [trimR_cons, ih (fun x hx => h x (by simp [hx]))]
    simp [h c (by simp)]

theorem trimS_nows (l : Str) (h : ∀ c ∈ l, isWsC c = false) : trimS l = l := by
  unfold trimS
  rw [trimL_nows l h, trimR_nows l h]

theorem nows_capSeg (a : Str) (h : ∀ c ∈ a, isDelimC c = false) :
    ∀ c ∈ capSeg a, isWsC c = false := by
  cases a with
  | nil => intro c hc; simp [capSeg] at hc
  | cons c0 a =>
    intro c hc
    simp only [capSeg, List.mem_cons, List.mem_map] at hc
    rcases hc with rfl | ⟨d, hd, rfl⟩
    · rw [isWsC_upC]
      exact delim_false_ws c0 (h c0 (by simp))
    · rw [isWsC_lowC]
      exact delim_false_ws d (h d (by simp [hd]))

theorem titleCase_seg (a b : Str) (ha : a ≠ []) (hb : b ≠ [])
    (hda : ∀ c ∈ a, isDelimC c = false) (hdb : ∀ c ∈ b, isDelimC c = false) :
    titleCaseName (a ++ '-' :: b) = capSeg a ++ '-' :: capSeg b := by
  have hnows : ∀ c ∈ a ++ '-' :: b, isWsC c = false := by
    intro c hc
    simp only [List.mem_append, List.mem_cons] at hc
    rcases hc with hc | rfl | hc
    · exact delim_false_ws c (hda c hc)
    · decide
    · exact delim_false_ws c (hdb c hc)
  have htr : trimS (a ++ '-' :: b) = a ++ '-' :: b := trimS_nows _ hnows
  have hne : (a ++ '-' :: b).isEmpty = false := by
    cases a with
    | nil => exact absurd rfl ha
    | cons c a => rfl
  have htc1 : tcGo true (a ++ '-' :: b) = capSeg a ++ '-' :: capSeg b := by
    rw [tcGo_run a ('-' :: b) ha hda]
    have h2 : tcGo false ('-' :: b) = '-' :: tcGo true b := by
      simp [tcGo, isDelimC]
    rw [h2]
    have h3 := tcGo_run b [] hb hdb
    rw [List.append_nil] at h3
    rw [h3]
    show _ = capSeg a ++ '-' :: capSeg b
    rw [show tcGo false ([] : Str) = [] from rfl, List.append_nil]
  have hnowsR : ∀ c ∈ capSeg a ++ '-' :: capSeg b, isWsC c = false := by
    intro c hc
    simp only [List.mem_append, List.mem_cons] at hc
    rcases hc with hc | rfl | hc
    · exact nows_capSeg a hda c hc
    · decide
    · exact nows_capSeg b hdb c hc
  unfold titleCaseName
  rw [htr]
  simp only [hne, Bool.false_eq_true, if_false]
  rw [htc1, cwGo_nows _ false hnowsR, trimS_nows _ hnowsR]

/-- C8: name title-casing is idempotent on every string, and it
capitalizes each hyphen-delimited (and whitespace-delimited) segment
independently — first letter uppercased, rest lowercased — preserving the
delimiters, as in `"al-rayyes"` becoming `"Al-Rayyes"` and `"AL MASRI"`
becoming `"Al Masri"`. -/
theorem titleCase_C8 :
    (∀ s : Str, titleCaseName (titleCaseName s) = titleCaseName s) ∧
    (∀ a b : Str, a ≠ [] → b ≠ [] → (∀ c ∈ a, isDelimC c = false) →
      (∀ c ∈ b, isDelimC c = false) →
      titleCaseName (a ++ '-' :: b) = capSeg a ++ '-' :: capSeg b) ∧
    titleCaseName (str "al-rayyes") = str "Al-Rayyes" ∧
    titleCaseName (str "AL MASRI") = str "Al Masri" :=
  ⟨titleCase_fix, titleCase_seg, by decide, by decide⟩

theorem titleCase_C8_witness :
    titleCaseName (str "al" ++ '-' :: str "rayyes") = capSeg (str "al") ++ '-' :: capSeg (str "rayyes") :=
  titleCase_C8.2.1 (str "al") (str "rayyes") (by decide) (by decide) (by decide) (by decide)
